import Mathlib

/-!
Verification development for the `antigravity-trace` tracing proxy.

We give a shallow embedding of the pure tracing core of
`antigravity-trace.py` — the schema-less wire-format decoder
(`pretty_proto`), the payload normalizer (`pretty`), the structural diff
engine (`delta`), the trace-log record construction (`Log.trace`,
`Log._preamble`, `Log._redact_headers`) and the CLI argument parser
(`parse_argv`) — and prove the specified properties about them.

Modelling conventions:
* JSON values are modelled by the inductive type `JVal`.  Python dicts are
  association lists with unique keys in insertion order; Python `None` is
  `JVal.null`; JSON numbers are modelled as integers (no claim below
  depends on fractional literals).
* Python exceptions are modelled with `Option`/`Except`: a function that
  can raise returns `none`/`.error` on the raising paths.
* Recursion over `JVal` (whose constructors nest lists) is implemented
  with an explicit fuel argument, seeded with `jvalSize` at the entry
  points, so that every definition is executable by kernel reduction.
  Fuel-independence lemmas are proved where theorems need them.
* `blake2b` content hashes are modelled by the hashed text itself
  (an injective model of a collision-free digest).
-/

set_option maxRecDepth 10000

/-- A JSON value as manipulated by the Python code: `null`, booleans,
numbers (modelled as integers), strings, arrays and insertion-ordered
objects. -/
inductive JVal where
  | null : JVal
  | bool (b : Bool) : JVal
  | num (n : Int) : JVal
  | str (s : String) : JVal
  | arr (xs : List JVal) : JVal
  | obj (kvs : List (String × JVal)) : JVal

/-! ## Small Python-semantics helpers -/

/-- Python truthiness of a JSON value: `None`, `False`, `0`, `""`, `[]`
and `\x7b\x7d` are falsy, everything else truthy. -/
def pyTruthy : JVal → Bool
  | .null => false
  | .bool b => b
  | .num n => n != 0
  | .str s => !s.isEmpty
  | .arr xs => !xs.isEmpty
  | .obj kvs => !kvs.isEmpty

/-- Lookup in a Python dict modelled as an association list. -/
def dictGet? {α : Type} (kvs : List (String × α)) (k : String) : Option α :=
  (kvs.find? (fun p => p.1 == k)).map (·.2)

/-- Python dict assignment `d[k] = v`: update in place if the key exists
(keeping its original position), else append at the end. -/
def dictSet {α : Type} (kvs : List (String × α)) (k : String) (v : α) :
    List (String × α) :=
  if kvs.any (fun p => p.1 == k) then
    kvs.map (fun p => if p.1 == k then (k, v) else p)
  else
    kvs ++ [(k, v)]

/-- Python `k in d` for a dict. -/
def dictHas {α : Type} (kvs : List (String × α)) (k : String) : Bool :=
  kvs.any (fun p => p.1 == k)

/-- Keep the last of any duplicated elements (order-insensitive set model;
used only as input to sorting). -/
def dedupKeys : List String → List String
  | [] => []
  | x :: xs => if x ∈ xs then dedupKeys xs else x :: dedupKeys xs

/-- Code-point-wise lexicographic order on character lists. -/
def leChars : List Char → List Char → Bool
  | [], _ => true
  | _ :: _, [] => false
  | c :: cs, d :: ds =>
    if c.val < d.val then true
    else if d.val < c.val then false
    else leChars cs ds

/-- Code-point-wise string order, as Python compares strings. -/
def strLeB (a b : String) : Bool :=
  leChars a.data b.data

/-- Insertion sort by `strLeB`; models Python `sorted` on strings. -/
def insertSorted (s : String) : List String → List String
  | [] => [s]
  | t :: ts => if strLeB s t then s :: t :: ts else t :: insertSorted s ts

/-- Python `sorted(set(l))`: sorted unique strings. -/
def sortedSet (l : List String) : List String :=
  (dedupKeys l).foldr insertSorted []

/-- Substring test on character lists. -/
def subListOf (pat : List Char) : List Char → Bool
  | [] => pat.isEmpty
  | c :: rest => pat.isPrefixOf (c :: rest) || subListOf pat rest

/-- Python `pat in s` for strings (substring containment). -/
def strContains (s pat : String) : Bool :=
  pat.isEmpty || subListOf pat.data s.data

/-- Python `s.startswith(pre)` (character-level, kernel-reducible). -/
def strStarts (s pre : String) : Bool :=
  pre.data.isPrefixOf s.data

/-- Python `s[:n]` (character-level, kernel-reducible). -/
def strTake (s : String) (n : Nat) : String :=
  ⟨s.data.take n⟩

/-- Python `s[n:]` (character-level, kernel-reducible). -/
def strDrop (s : String) (n : Nat) : String :=
  ⟨s.data.drop n⟩

/-- The characters Python `str.strip()` removes (whitespace). -/
def pyWs (c : Char) : Bool :=
  c = ' ' || c = '\t' || c = '\n' || c = '\r' ||
  c = '\x0b' || c = '\x0c' ||
  (0x1c ≤ c.val && c.val ≤ 0x1f) ||
  c.val = 0x85 || c.val = 0xa0 || c.val = 0x1680 ||
  (0x2000 ≤ c.val && c.val ≤ 0x200a) ||
  c.val = 0x2028 || c.val = 0x2029 || c.val = 0x202f ||
  c.val = 0x205f || c.val = 0x3000

/-- Drop leading characters satisfying `p`. -/
def dropWhileChar (p : Char → Bool) (l : List Char) : List Char :=
  l.dropWhile p

/-- Python `s.strip()` (both ends, whitespace). -/
def pyStrip (s : String) : String :=
  ⟨((s.data.dropWhile pyWs).reverse.dropWhile pyWs).reverse⟩

/-- Python `s.lstrip()` (left end only, whitespace). -/
def pyLStrip (s : String) : String :=
  ⟨s.data.dropWhile pyWs⟩

/-- Python `s.strip(" .")` as used for filename sanitizing. -/
def stripSpaceDot (s : String) : String :=
  let p : Char → Bool := fun c => c = ' ' || c = '.'
  ⟨((s.data.dropWhile p).reverse.dropWhile p).reverse⟩

/-- Replace every (non-overlapping, leftmost-first) occurrence of `pat`
by `rep`; models Python `str.replace` for nonempty `pat`.  The fuel is
seeded with the text length (each step consumes at least one
character). -/
def replaceAuxF (pat rep : List Char) : Nat → List Char → List Char
  | 0, l => l
  | _ + 1, [] => []
  | fuel + 1, c :: rest =>
    if pat ≠ [] ∧ pat.isPrefixOf (c :: rest) then
      rep ++ replaceAuxF pat rep fuel ((c :: rest).drop pat.length)
    else
      c :: replaceAuxF pat rep fuel rest

/-- Python `str.replace` (nonempty pattern). -/
def strReplace (s pat rep : String) : String :=
  ⟨replaceAuxF pat.data rep.data s.data.length s.data⟩

/-- The line-break characters recognised by Python `str.splitlines`
(other than the two-character `\r\n`). -/
def pyLineBreak (c : Char) : Bool :=
  c = '\n' || c = '\r' || c = '\x0b' || c = '\x0c' ||
  c.val = 0x1c || c.val = 0x1d || c.val = 0x1e || c.val = 0x85 ||
  c.val = 0x2028 || c.val = 0x2029

/-- Python `str.splitlines()` on character lists: split at line breaks,
treating `\r\n` as one break, with no trailing empty line. -/
def splitlinesAux : List Char → List Char → List (List Char)
  | [], cur => if cur.isEmpty then [] else [cur]
  | '\r' :: '\n' :: rest, cur => cur :: splitlinesAux rest []
  | c :: rest, cur =>
    if pyLineBreak c then cur :: splitlinesAux rest []
    else splitlinesAux rest (cur ++ [c])

/-- Python `s.splitlines()`. -/
def pySplitlines (s : String) : List String :=
  (splitlinesAux s.data []).map (⟨·⟩)

/-- Lowercase hex digit for a value below 16. -/
def hexDigit (n : Nat) : Char :=
  if n < 10 then Char.ofNat (48 + n) else Char.ofNat (87 + n)

/-- Python `bytes.hex()`: two lowercase hex digits per byte. -/
def hexStr (bs : List Nat) : String :=
  ⟨bs.foldr (fun b acc => hexDigit (b / 16 % 16) :: hexDigit (b % 16) :: acc) []⟩

/-! ## A computable size measure on `JVal`

Used to seed the fuel of the fuel-indexed recursions below; it strictly
dominates the nesting depth of the value. -/

mutual

/-- Size of a JSON value (strictly larger than that of any subvalue). -/
def jvalSize : JVal → Nat
  | .null => 1
  | .bool _ => 1
  | .num _ => 1
  | .str _ => 1
  | .arr xs => 1 + jvalSizeList xs
  | .obj kvs => 1 + jvalSizePairs kvs

/-- Size of a list of JSON values. -/
def jvalSizeList : List JVal → Nat
  | [] => 0
  | v :: vs => 1 + jvalSize v + jvalSizeList vs

/-- Size of a list of object items. -/
def jvalSizePairs : List (String × JVal) → Nat
  | [] => 0
  | (_, v) :: vs => 1 + jvalSize v + jvalSizePairs vs

end

/-! ## Decidable equality on `JVal` -/

mutual

/-- Structural boolean equality on JSON values. -/
def jvalBeq : JVal → JVal → Bool
  | .null, .null => true
  | .bool a, .bool b => a == b
  | .num a, .num b => a == b
  | .str a, .str b => a == b
  | .arr xs, .arr ys => jvalBeqList xs ys
  | .obj xs, .obj ys => jvalBeqPairs xs ys
  | _, _ => false

/-- Pointwise equality on value lists. -/
def jvalBeqList : List JVal → List JVal → Bool
  | [], [] => true
  | x :: xs, y :: ys => jvalBeq x y && jvalBeqList xs ys
  | _, _ => false

/-- Pointwise equality on object items. -/
def jvalBeqPairs : List (String × JVal) → List (String × JVal) → Bool
  | [], [] => true
  | (k, x) :: xs, (l, y) :: ys => k == l && jvalBeq x y && jvalBeqPairs xs ys
  | _, _ => false

end

mutual

theorem jvalBeq_refl : ∀ a, jvalBeq a a = true
  | .null => rfl
  | .bool b => by simp [jvalBeq]
  | .num n => by simp [jvalBeq]
  | .str s => by simp [jvalBeq]
  | .arr xs => jvalBeqList_refl xs
  | .obj kvs => jvalBeqPairs_refl kvs

theorem jvalBeqList_refl : ∀ xs, jvalBeqList xs xs = true
  | [] => rfl
  | x :: xs => by
    simp only [jvalBeqList, Bool.and_eq_true]
    exact ⟨jvalBeq_refl x, jvalBeqList_refl xs⟩

theorem jvalBeqPairs_refl : ∀ kvs : List (String × JVal), jvalBeqPairs kvs kvs = true
  | [] => rfl
  | (k, x) :: kvs => by
    simp only [jvalBeqPairs, Bool.and_eq_true]
    exact ⟨⟨by simp, jvalBeq_refl x⟩, jvalBeqPairs_refl kvs⟩

end

mutual

theorem jvalBeq_sound : ∀ a b, jvalBeq a b = true → a = b
  | .null, .null, _ => rfl
  | .bool a, .bool b, h => by simp only [jvalBeq, beq_iff_eq] at h; rw [h]
  | .num a, .num b, h => by simp only [jvalBeq, beq_iff_eq] at h; rw [h]
  | .str a, .str b, h => by simp only [jvalBeq, beq_iff_eq] at h; rw [h]
  | .arr xs, .arr ys, h => congrArg JVal.arr (jvalBeqList_sound xs ys h)
  | .obj xs, .obj ys, h => congrArg JVal.obj (jvalBeqPairs_sound xs ys h)
  | .null, .bool _, h => by simp [jvalBeq] at h
  | .null, .num _, h => by simp [jvalBeq] at h
  | .null, .str _, h => by simp [jvalBeq] at h
  | .null, .arr _, h => by simp [jvalBeq] at h
  | .null, .obj _, h => by simp [jvalBeq] at h
  | .bool _, .null, h => by simp [jvalBeq] at h
  | .bool _, .num _, h => by simp [jvalBeq] at h
  | .bool _, .str _, h => by simp [jvalBeq] at h
  | .bool _, .arr _, h => by simp [jvalBeq] at h
  | .bool _, .obj _, h => by simp [jvalBeq] at h
  | .num _, .null, h => by simp [jvalBeq] at h
  | .num _, .bool _, h => by simp [jvalBeq] at h
  | .num _, .str _, h => by simp [jvalBeq] at h
  | .num _, .arr _, h => by simp [jvalBeq] at h
  | .num _, .obj _, h => by simp [jvalBeq] at h
  | .str _, .null, h => by simp [jvalBeq] at h
  | .str _, .bool _, h => by simp [jvalBeq] at h
  | .str _, .num _, h => by simp [jvalBeq] at h
  | .str _, .arr _, h => by simp [jvalBeq] at h
  | .str _, .obj _, h => by simp [jvalBeq] at h
  | .arr _, .null, h => by simp [jvalBeq] at h
  | .arr _, .bool _, h => by simp [jvalBeq] at h
  | .arr _, .num _, h => by simp [jvalBeq] at h
  | .arr _, .str _, h => by simp [jvalBeq] at h
  | .arr _, .obj _, h => by simp [jvalBeq] at h
  | .obj _, .null, h => by simp [jvalBeq] at h
  | .obj _, .bool _, h => by simp [jvalBeq] at h
  | .obj _, .num _, h => by simp [jvalBeq] at h
  | .obj _, .str _, h => by simp [jvalBeq] at h
  | .obj _, .arr _, h => by simp [jvalBeq] at h

theorem jvalBeqList_sound : ∀ xs ys, jvalBeqList xs ys = true → xs = ys
  | [], [], _ => rfl
  | [], _ :: _, h => by simp [jvalBeqList] at h
  | _ :: _, [], h => by simp [jvalBeqList] at h
  | x :: xs, y :: ys, h => by
    simp only [jvalBeqList, Bool.and_eq_true] at h
    rw [jvalBeq_sound x y h.1, jvalBeqList_sound xs ys h.2]

theorem jvalBeqPairs_sound : ∀ xs ys : List (String × JVal), jvalBeqPairs xs ys = true → xs = ys
  | [], [], _ => rfl
  | [], _ :: _, h => by simp [jvalBeqPairs] at h
  | _ :: _, [], h => by simp [jvalBeqPairs] at h
  | (k, x) :: xs, (l, y) :: ys, h => by
    simp only [jvalBeqPairs, Bool.and_eq_true] at h
    have hk : k = l := by have := h.1.1; simpa using this
    rw [hk, jvalBeq_sound x y h.1.2, jvalBeqPairs_sound xs ys h.2]

end

instance : DecidableEq JVal := fun a b =>
  if h : jvalBeq a b = true then .isTrue (jvalBeq_sound a b h)
  else .isFalse (fun he => h (he ▸ jvalBeq_refl a))

/-! ## Python `json.dumps` -/

/-- Four uppercase hex digits (as in `\uXXXX` escapes). -/
def hex4 (n : Nat) : List Char :=
  let d := fun k => if k < 10 then Char.ofNat (48 + k) else Char.ofNat (55 + k)
  [d (n / 4096 % 16), d (n / 256 % 16), d (n / 16 % 16), d (n % 16)]

/-- `json.dumps` escaping of one character (`ensure_ascii=True`):
characters outside `0x20..0x7e` are escaped, astral characters as a
surrogate pair. -/
def jsonEscChar (c : Char) : List Char :=
  if c = '"' then ['\\', '"']
  else if c = '\\' then ['\\', '\\']
  else if c = '\n' then ['\\', 'n']
  else if c = '\r' then ['\\', 'r']
  else if c = '\t' then ['\\', 't']
  else if c = '\x08' then ['\\', 'b']
  else if c = '\x0c' then ['\\', 'f']
  else if c.toNat < 0x20 || 0x7f ≤ c.toNat then
    if c.toNat < 0x10000 then '\\' :: 'u' :: hex4 c.toNat
    else
      let v := c.toNat - 0x10000
      ('\\' :: 'u' :: hex4 (0xd800 + v / 0x400)) ++ ('\\' :: 'u' :: hex4 (0xdc00 + v % 0x400))
  else [c]

/-- `json.dumps` of a string literal. -/
def jsonDumpStr (s : String) : String :=
  ⟨'"' :: s.data.foldr (fun c acc => jsonEscChar c ++ acc) ['"']⟩

/-- Insertion sort of object items by key (`json.dumps(..., sort_keys=True)`). -/
def insertPair (p : String × JVal) : List (String × JVal) → List (String × JVal)
  | [] => [p]
  | q :: qs => if strLeB p.1 q.1 then p :: q :: qs else q :: insertPair p qs

/-- Sort object items by key. -/
def sortPairs (kvs : List (String × JVal)) : List (String × JVal) :=
  kvs.foldr insertPair []

/-- `json.dumps` with default separators, fuel-indexed (the fuel is seeded
with `jvalSize` at the entry points and strictly dominates the value
depth). -/
def pyDumpsF (sortKeys : Bool) : Nat → JVal → String
  | _, .null => "null"
  | _, .bool b => if b then "true" else "false"
  | _, .num n => toString n
  | _, .str s => jsonDumpStr s
  | 0, .arr _ => ""
  | 0, .obj _ => ""
  | fuel + 1, .arr xs =>
    "[" ++ String.intercalate ", " (xs.map (pyDumpsF sortKeys fuel)) ++ "]"
  | fuel + 1, .obj kvs =>
    let items := if sortKeys then sortPairs kvs else kvs
    "\x7b" ++
      String.intercalate ", "
        (items.map (fun kv => jsonDumpStr kv.1 ++ ": " ++ pyDumpsF sortKeys fuel kv.2)) ++
      "\x7d"

/-- Python `json.dumps(v)` (insertion order). -/
def pyDumps (v : JVal) : String := pyDumpsF false (jvalSize v) v

/-- Python `json.dumps(v, sort_keys=True)`: the canonical text form used
for content hashing and for the diff key. -/
def pyDumpsCanon (v : JVal) : String := pyDumpsF true (jvalSize v) v

/-- Python `==` between JSON values, at the scalar call sites of `delta`
(both-list and both-dict pairs never reach `==` there).  Cross
`bool`/`int` comparison is numeric, as in Python; for the unreachable
container/container cases we compare canonical dumps (Python's deep
equality up to `bool`/`int` coercion inside containers). -/
def pyEq : JVal → JVal → Bool
  | .null, .null => true
  | .bool a, .bool b => a == b
  | .num a, .num b => a == b
  | .bool a, .num b => (if a then (1 : Int) else 0) == b
  | .num a, .bool b => a == (if b then (1 : Int) else 0)
  | .str a, .str b => a == b
  | .arr a, .arr b => pyDumpsCanon (.arr a) == pyDumpsCanon (.arr b)
  | .obj a, .obj b => pyDumpsCanon (.obj a) == pyDumpsCanon (.obj b)
  | _, _ => false

/-! ## UTF-8 decoding (Python `bytes.decode("utf-8")`, strict) -/

/-- Strict UTF-8 decoding: rejects overlong forms, surrogates, values
above `0x10FFFF`, and truncated sequences — exactly the inputs on which
Python raises `UnicodeDecodeError`. -/
def utf8Decode : List Nat → Option (List Char)
  | [] => some []
  | b :: rest =>
    if b < 0x80 then (utf8Decode rest).map (Char.ofNat b :: ·)
    else if b < 0xc2 then none
    else if b < 0xe0 then
      match rest with
      | b2 :: rest2 =>
        if 0x80 ≤ b2 ∧ b2 < 0xc0 then
          (utf8Decode rest2).map (Char.ofNat ((b - 0xc0) * 0x40 + (b2 - 0x80)) :: ·)
        else none
      | [] => none
    else if b < 0xf0 then
      match rest with
      | b2 :: b3 :: rest3 =>
        let lo2 := if b = 0xe0 then 0xa0 else 0x80
        let hi2 := if b = 0xed then 0x9f else 0xbf
        if lo2 ≤ b2 ∧ b2 ≤ hi2 ∧ 0x80 ≤ b3 ∧ b3 < 0xc0 then
          (utf8Decode rest3).map
            (Char.ofNat ((b - 0xe0) * 0x1000 + (b2 - 0x80) * 0x40 + (b3 - 0x80)) :: ·)
        else none
      | _ => none
    else if b < 0xf5 then
      match rest with
      | b2 :: b3 :: b4 :: rest4 =>
        let lo2 := if b = 0xf0 then 0x90 else 0x80
        let hi2 := if b = 0xf4 then 0x8f else 0xbf
        if lo2 ≤ b2 ∧ b2 ≤ hi2 ∧ 0x80 ≤ b3 ∧ b3 < 0xc0 ∧ 0x80 ≤ b4 ∧ b4 < 0xc0 then
          (utf8Decode rest4).map
            (Char.ofNat
              ((b - 0xf0) * 0x40000 + (b2 - 0x80) * 0x1000 + (b3 - 0x80) * 0x40 + (b4 - 0x80)) :: ·)
        else none
      | _ => none
    else none

/-! ## `json.loads` (modelled)

A recursive-descent parser for the JSON accepted by Python `json.loads`,
restricted to integer numeric literals and strings without lone
surrogates (no claim below depends on those corners).  The fuel bounds
the nesting depth and is seeded with the input length. -/

/-- JSON inter-token whitespace (space, tab, newline, carriage return). -/
def jpWsChar (c : Char) : Bool :=
  c = ' ' || c = '\t' || c = '\n' || c = '\r'

/-- Skip inter-token whitespace. -/
def jpSkipWs (l : List Char) : List Char :=
  l.dropWhile jpWsChar

/-- Hex digit value of a character, if any. -/
def hexVal? (c : Char) : Option Nat :=
  if '0' ≤ c ∧ c ≤ '9' then some (c.toNat - 48)
  else if 'a' ≤ c ∧ c ≤ 'f' then some (c.toNat - 87)
  else if 'A' ≤ c ∧ c ≤ 'F' then some (c.toNat - 55)
  else none

/-- Parse the body of a JSON string literal (the opening quote already
consumed), accumulating characters in reverse. -/
def jpStringAux : List Char → List Char → Option (String × List Char)
  | [], _ => none
  | '"' :: rest, acc => some (⟨acc.reverse⟩, rest)
  | '\\' :: 'u' :: h1 :: h2 :: h3 :: h4 :: rest, acc =>
    match hexVal? h1, hexVal? h2, hexVal? h3, hexVal? h4 with
    | some d1, some d2, some d3, some d4 =>
      let code := d1 * 4096 + d2 * 256 + d3 * 16 + d4
      if code < 0xd800 ∨ 0xe000 ≤ code then
        jpStringAux rest (Char.ofNat code :: acc)
      else if code < 0xdc00 then
        -- high surrogate: must be followed by an escaped low surrogate
        match rest with
        | '\\' :: 'u' :: g1 :: g2 :: g3 :: g4 :: rest2 =>
          match hexVal? g1, hexVal? g2, hexVal? g3, hexVal? g4 with
          | some e1, some e2, some e3, some e4 =>
            let code2 := e1 * 4096 + e2 * 256 + e3 * 16 + e4
            if 0xdc00 ≤ code2 ∧ code2 < 0xe000 then
              jpStringAux rest2
                (Char.ofNat (0x10000 + (code - 0xd800) * 0x400 + (code2 - 0xdc00)) :: acc)
            else none
          | _, _, _, _ => none
        | _ => none
      else none
    | _, _, _, _ => none
  | '\\' :: e :: rest, acc =>
    if e = '"' then jpStringAux rest ('"' :: acc)
    else if e = '\\' then jpStringAux rest ('\\' :: acc)
    else if e = '/' then jpStringAux rest ('/' :: acc)
    else if e = 'b' then jpStringAux rest ('\x08' :: acc)
    else if e = 'f' then jpStringAux rest ('\x0c' :: acc)
    else if e = 'n' then jpStringAux rest ('\n' :: acc)
    else if e = 'r' then jpStringAux rest ('\r' :: acc)
    else if e = 't' then jpStringAux rest ('\t' :: acc)
    else none
  | c :: rest, acc =>
    if c.toNat < 0x20 then none else jpStringAux rest (c :: acc)

/-- ASCII digit test. -/
def isDigitC (c : Char) : Bool := '0' ≤ c && c ≤ '9'

/-- Parse a JSON integer literal (leading-zero rule as in `json.loads`;
fraction and exponent forms are outside the model and rejected). -/
def jpNumber : List Char → Option (Int × List Char)
  | l =>
    let (neg, l1) : Bool × List Char :=
      match l with
      | '-' :: r => (true, r)
      | _ => (false, l)
    match l1 with
    | [] => none
    | c :: rest =>
      if c = '0' then
        match rest with
        | d :: _ =>
          if d = '.' ∨ d = 'e' ∨ d = 'E' then none
          else some (0, rest)
        | [] => some (0, rest)
      else if isDigitC c ∧ c ≠ '0' then
        let digits := (c :: rest).takeWhile isDigitC
        let rest2 := (c :: rest).dropWhile isDigitC
        match rest2 with
        | d :: _ =>
          if d = '.' ∨ d = 'e' ∨ d = 'E' then none
          else
            let n : Nat := digits.foldl (fun acc d => acc * 10 + (d.toNat - 48)) 0
            some (if neg then -(n : Int) else (n : Int), rest2)
        | [] =>
          let n : Nat := digits.foldl (fun acc d => acc * 10 + (d.toNat - 48)) 0
          some (if neg then -(n : Int) else (n : Int), rest2)
      else none

mutual

/-- Parse one JSON value. -/
def jpValueF : Nat → List Char → Option (JVal × List Char)
  | 0, _ => none
  | fuel + 1, l =>
    match jpSkipWs l with
    | [] => none
    | c :: rest =>
      if c = '\x7b' then jpMembersF fuel rest [] true
      else if c = '[' then jpElemsF fuel rest [] true
      else if c = '"' then (jpStringAux rest []).map (fun p => (.str p.1, p.2))
      else if c = 't' then
        if rest.take 3 = ['r', 'u', 'e'] then some (.bool true, rest.drop 3) else none
      else if c = 'f' then
        if rest.take 4 = ['a', 'l', 's', 'e'] then some (.bool false, rest.drop 4) else none
      else if c = 'n' then
        if rest.take 3 = ['u', 'l', 'l'] then some (.null, rest.drop 3) else none
      else
        (jpNumber (c :: rest)).map (fun p => (.num p.1, p.2))

/-- Parse object members after `\x7b` (`first = true`) or after a comma. -/
def jpMembersF : Nat → List Char → List (String × JVal) → Bool → Option (JVal × List Char)
  | 0, _, _, _ => none
  | fuel + 1, l, acc, first =>
    match jpSkipWs l with
    | [] => none
    | c :: rest =>
      if c = '\x7d' ∧ first then some (.obj acc, rest)
      else if c = '"' then
        match jpStringAux rest [] with
        | none => none
        | some (k, r1) =>
          match jpSkipWs r1 with
          | ':' :: r2 =>
            match jpValueF fuel r2 with
            | none => none
            | some (v, r3) =>
              -- duplicate keys: last value wins, first position kept
              let acc := dictSet acc k v
              match jpSkipWs r3 with
              | ',' :: r4 => jpMembersF fuel r4 acc false
              | '\x7d' :: r4 => some (.obj acc, r4)
              | _ => none
          | _ => none
      else none

/-- Parse array elements after `[` (`first = true`) or after a comma. -/
def jpElemsF : Nat → List Char → List JVal → Bool → Option (JVal × List Char)
  | 0, _, _, _ => none
  | fuel + 1, l, acc, first =>
    match jpSkipWs l with
    | [] => none
    | c :: rest =>
      if c = ']' ∧ first then some (.arr acc.reverse, rest)
      else
        match jpValueF fuel (c :: rest) with
        | none => none
        | some (v, r1) =>
          match jpSkipWs r1 with
          | ',' :: r2 => jpElemsF fuel r2 (v :: acc) false
          | ']' :: r2 => some (.arr (v :: acc).reverse, r2)
          | _ => none

end

/-- Python `json.loads`: parse one JSON document, requiring the whole
text to be consumed (up to trailing whitespace). -/
def jsonParse (s : String) : Option JVal :=
  match jpValueF (s.length + 16) s.data with
  | some (v, rest) => if (jpSkipWs rest).isEmpty then some v else none
  | none => none

/-! ## The text half of `pretty` (SSE reconstruction, JSON, JSONL) -/

/-- `pretty`: does every line of the payload either start with `data:` or
consist of whitespace? -/
def sseApplies (s : String) : Bool :=
  (pySplitlines s).all (fun ln => strStarts ln "data:" || (pyStrip ln).isEmpty)

/-- `pretty`: reconstruct an SSE payload — keep the `data:` lines, strip
the prefix and left whitespace, and join with newlines. -/
def sseJoin (s : String) : String :=
  String.intercalate "\n"
    (((pySplitlines s).filter (strStarts · "data:")).map (fun ln => pyLStrip (strDrop ln 5)))

/-- `pretty`: parse as newline-delimited JSON (one value per non-blank
line); `none` if any line fails. -/
def jsonlParse (s : String) : Option (List JVal) :=
  ((pySplitlines s).filter (fun ln => !(pyStrip ln).isEmpty)).mapM jsonParse

/-- The tail of `pretty` operating on a working text value: SSE
reconstruction, then JSON, then JSONL, then the text itself. -/
def textPipeline (s : String) : JVal :=
  let s := if sseApplies s then sseJoin s else s
  match jsonParse s with
  | some v => v
  | none =>
    match jsonlParse s with
    | some vs => .arr vs
    | none => .str s

/-! ## The wire-format decoder `pretty_proto` and the normalizer `pretty`

The Python decoder walks a position through the buffer; we model the
not-yet-consumed suffix directly.  Every exception the Python code can
raise inside `pretty_proto` (the `assert`s and the `TypeError` raised by
the map-collapse when iterating a non-iterable single element) is a
distinct `WireErr`.  The final `assert pos == len(buf), "incomplete"`
cannot fire: the loop only exits with the whole buffer consumed, which
in this model is the empty suffix.  The fuel decreases at every loop
iteration and every recursion into a nested blob; since each step
consumes at least one byte, `length + 1` is always sufficient (proved
below as `decodeLoop_no_fuelOut`). -/

/-- The failure modes of `pretty_proto` (assertion messages of the
source, plus the collapse `TypeError` and the fuel marker). -/
inductive WireErr where
  | truncVarint : WireErr
  | fix64OOB : WireErr
  | blobOOB : WireErr
  | fix32OOB : WireErr
  | badWire : WireErr
  | collapseTypeErr : WireErr
  | fuelOut : WireErr
  deriving DecidableEq

/-- `read_varint`: little-endian base-128 accumulation, `value |=
(b & 0x7F) << shift`; returns the value and the unconsumed suffix, or
the `truncated varint` failure when the bytes run out. -/
def readVarint : List Nat → Nat → Nat → Except WireErr (Nat × List Nat)
  | [], _, _ => .error .truncVarint
  | b :: rest, shift, value =>
    let value := value ||| ((b % 128) <<< shift)
    if b < 128 then .ok (value, rest) else readVarint rest (shift + 7) value

/-- `int.from_bytes(_, "little")`. -/
def fromLE (bs : List Nat) : Nat :=
  bs.foldr (fun b acc => b + 256 * acc) 0

/-- Is a decoded element a 2-element `[string, value]` pair? -/
def isPairEntry : JVal → Bool
  | .arr [.str _, _] => true
  | _ => false

/-- Python `dict(pairs)`: last value wins, first position kept. -/
def pyDictOfPairs (xs : List JVal) : List (String × JVal) :=
  xs.foldl
    (fun acc x =>
      match x with
      | .arr [.str k, v] => dictSet acc k v
      | _ => acc)
    []

/-- The post-processing collapse at the end of `pretty_proto`: a
single-element output whose element is a list of `[string, value]` pairs
becomes a dict.  Iterating the single element raises `TypeError` when it
is not iterable (numbers, `None`, booleans); iterating a dict yields its
keys and a string its characters, so those collapse only when empty. -/
def collapseE : List JVal → Except WireErr JVal
  | [x] =>
    match x with
    | .arr xs => if xs.all isPairEntry then .ok (.obj (pyDictOfPairs xs)) else .ok (.arr [x])
    | .obj kvs => if kvs.isEmpty then .ok (.obj []) else .ok (.arr [x])
    | .str s => if s.isEmpty then .ok (.obj []) else .ok (.arr [x])
    | _ => .error .collapseTypeErr
  | out => .ok (.arr out)

/-- The two fallback halves of `pretty` for a bytes payload, given the
result of the decode attempt: on success the structured value, on any
failure hex when UTF-8 decoding fails or is longer, else the stripped
decoded text through the text pipeline. -/
def prettyBytesCore (res : Except WireErr JVal) (bs : List Nat) : JVal :=
  match res with
  | .ok v => v
  | .error _ =>
    let hex := hexStr bs
    match utf8Decode bs with
    | none => .str hex
    | some chars =>
      let t := pyStrip ⟨chars⟩
      if hex.length < t.length then .str hex else textPipeline t

/-- The field loop of `pretty_proto`: read a tag varint, dispatch on its
low 3 bits (0 varint, 1 fixed 8 bytes, 2 length-prefixed blob decoded
recursively through `pretty`, 5 fixed 4 bytes), and fail on anything
else or on any read past the end of the buffer. -/
def decodeLoop : Nat → List Nat → Except WireErr (List JVal)
  | 0, _ => .error .fuelOut
  | _ + 1, [] => .ok []
  | fuel + 1, b :: bs =>
    match readVarint (b :: bs) 0 0 with
    | .error e => .error e
    | .ok (key, rest) =>
      let wire := key % 8
      if wire = 0 then
        match readVarint rest 0 0 with
        | .error e => .error e
        | .ok (v, rest2) => (decodeLoop fuel rest2).map (fun out => .num (Int.ofNat v) :: out)
      else if wire = 1 then
        if 8 ≤ rest.length then
          (decodeLoop fuel (rest.drop 8)).map (fun out => .num (Int.ofNat (fromLE (rest.take 8))) :: out)
        else .error .fix64OOB
      else if wire = 2 then
        match readVarint rest 0 0 with
        | .error e => .error e
        | .ok (len, rest2) =>
          if len ≤ rest2.length then
            (decodeLoop fuel (rest2.drop len)).map
              (fun out =>
                prettyBytesCore ((decodeLoop fuel (rest2.take len)).bind collapseE)
                  (rest2.take len) :: out)
          else .error .blobOOB
      else if wire = 5 then
        if 4 ≤ rest.length then
          (decodeLoop fuel (rest.drop 4)).map (fun out => .num (Int.ofNat (fromLE (rest.take 4))) :: out)
        else .error .fix32OOB
      else .error .badWire

/-- The bytes branch of `pretty`: try `pretty_proto`; on any failure fall
back to hex when UTF-8 decoding fails, to hex when it is strictly
shorter than the stripped decoded text, and otherwise continue with the
stripped decoded text through the text pipeline. -/
def prettyBytes (fuel : Nat) (bs : List Nat) : JVal :=
  prettyBytesCore ((decodeLoop fuel bs).bind collapseE) bs

/-- `pretty_proto buf`: parse the protobuf wire format, failing exactly
when the Python function throws. -/
def pretty_proto (bs : List Nat) : Except WireErr JVal :=
  (decodeLoop (bs.length + 1) bs).bind collapseE

/-- A captured payload: bytes or text (`None` is represented by `none`
at the call sites of `pretty`). -/
inductive Payload where
  | bytes (bs : List Nat) : Payload
  | str (s : String) : Payload

/-- `pretty`: the payload normalizer. -/
def pretty : Option Payload → JVal
  | none => .null
  | some (.str s) => textPipeline s
  | some (.bytes bs) => prettyBytes (bs.length + 1) bs

/-! ## The diff engine `delta`

`delta(prev, new)` returns `(identical, representation)`.  The Python
function can raise `IndexError` (evaluating `subdelta[0]` when a common
key changed to an empty list); the raising path is modelled as
`.error .indexErr`.  The fuel decreases at each recursion into common
dict keys and is seeded with `jvalSize`; fuel exhaustion is the distinct
`.error .fuelOut`, proved unreachable for the seed (`deltaE_no_fuelOut`
below), so an error at the entry point means exactly the Python
exception. -/

/-- Failure of the diff engine: the genuine Python `IndexError`, or
exhaustion of the termination fuel (proved unreachable). -/
inductive DeltaErr where
  | indexErr : DeltaErr
  | fuelOut : DeltaErr
deriving DecidableEq

/-- `blake2b` over the canonical text form, modelled by the text itself:
an injective stand-in for a collision-free content digest. -/
def blake2b (s : String) : String := s

/-- Dict access for a key known to be present (`d[k]`). -/
def findVal (kvs : List (String × JVal)) (k : String) : JVal :=
  (dictGet? kvs k).getD .null

/-- The greedy matching walk of the list branch: for each previous
element find the first not-yet-consumed element of `new` with the same
content hash; unmatched previous elements are removals, skipped and
leftover elements of `new` are additions.  Returns (removals,
additions). -/
def deltaListWalk : List (JVal × String) → List (JVal × String) → List JVal × List JVal
  | [], newl => ([], newl.map (·.1))
  | (pv, ph) :: rest, newl =>
    match newl.findIdx? (fun q => q.2 == ph) with
    | none =>
      let ra := deltaListWalk rest newl
      (pv :: ra.1, ra.2)
    | some ni =>
      let ra := deltaListWalk rest (newl.drop (ni + 1))
      (ra.1, (newl.take ni).map (·.1) ++ ra.2)

/-- Is a delta-list element the removals separator `"---"`? -/
def isSepDash : JVal → Bool
  | .str s => s = "---"
  | _ => false

/-- Is a delta-list element the additions marker `"..."`? -/
def isSepDots : JVal → Bool
  | .str s => s = "..."
  | _ => false

/-- The list branch of `delta` (no recursion: elements are compared by
content hash only). -/
def deltaList (prev new : List JVal) : Bool × JVal :=
  let prevl := prev.map (fun v => (v, blake2b (pyDumpsCanon v)))
  let newl := new.map (fun v => (v, blake2b (pyDumpsCanon v)))
  let ra := deltaListWalk prevl newl
  let removals := ra.1
  let additions := ra.2
  if removals.isEmpty ∧ additions.isEmpty then (true, .arr new)
  else if removals.length + additions.length < new.length then
    (false,
      .arr
        (if removals.isEmpty then .str "..." :: additions
         else if additions.isEmpty then .str "---" :: removals
         else .str "..." :: additions ++ .str "---" :: removals))
  else (false, .arr new)

/-- `sorted(set(k for k in prev.keys() if k not in new))`. -/
def removedKeysOf (prevl newl : List (String × JVal)) : List String :=
  sortedSet ((prevl.map (·.1)).filter (fun k => ¬ k ∈ newl.map (·.1)))

/-- `sorted(set(k for k in new.keys() if k not in prev))`. -/
def addedKeysOf (prevl newl : List (String × JVal)) : List String :=
  sortedSet ((newl.map (·.1)).filter (fun k => ¬ k ∈ prevl.map (·.1)))

/-- `sorted(set(k for k in prev.keys() if k in new))`. -/
def commonKeysOf (prevl newl : List (String × JVal)) : List String :=
  sortedSet ((prevl.map (·.1)).filter (fun k => k ∈ newl.map (·.1)))

/-- The removal and addition markers written into `d` before the common
keys are walked. -/
def deltaInit (prevl newl : List (String × JVal)) : List (String × JVal) :=
  (addedKeysOf prevl newl).foldl (fun d k => dictSet d ("+" ++ k) (findVal newl k))
    ((removedKeysOf prevl newl).foldl (fun d k => dictSet d ("-" ++ k) .null) [])

/-- The loop over sorted common keys of the dict branch; the recursion
into the two values of a common key is the parameter `dsub`. -/
def deltaCommonGo (dsub : JVal → JVal → Except DeltaErr (Bool × JVal))
    (prevl newl : List (String × JVal)) :
    List String → List (String × JVal) → Except DeltaErr (List (String × JVal))
  | [], d => .ok d
  | k :: ks, d =>
    match dsub (findVal prevl k) (findVal newl k) with
    | .error e => .error e
    | .ok idsub =>
      if idsub.1 then
        let nv := findVal newl k
        let d :=
          if (pyDumps nv).length < 128 then dictSet d k nv
          else
            match nv with
            | .obj _ => dictSet d k (.obj [("unchanged", .str "unchanged")])
            | .arr _ => dictSet d k (.arr [.str "..."])
            | .str _ => dictSet d k (.str "unchanged")
            | _ => d
        deltaCommonGo dsub prevl newl ks d
      else
        match idsub.2 with
        | .arr [] => .error .indexErr  -- Python: `subdelta[0]` raises IndexError
        | .arr (x :: xs) =>
          if ¬ isSepDash x ∧ ¬ isSepDots x then
            deltaCommonGo dsub prevl newl ks (dictSet d ("*" ++ k) (.arr (x :: xs)))
          else
            let sub := x :: xs
            let iremove := sub.findIdx? isSepDash
            let removals :=
              match iremove with
              | none => []
              | some i => sub.drop (i + 1)
            let additions :=
              match iremove with
              | some 0 => []
              | none => sub.drop 1
              | some i => (sub.drop 1).take (i - 1)
            let d := if removals.isEmpty then d else dictSet d (k ++ "-") (.arr removals)
            let d := if additions.isEmpty then d else dictSet d (k ++ "+") (.arr additions)
            deltaCommonGo dsub prevl newl ks d
        | sub => deltaCommonGo dsub prevl newl ks (dictSet d ("*" ++ k) sub)

/-- `delta`: dict branch (recursing into common keys), list branch,
and the equality fallback for every other pairing. -/
def deltaF : Nat → JVal → JVal → Except DeltaErr (Bool × JVal)
  | 0, _, _ => .error .fuelOut
  | fuel + 1, .obj prevl, .obj newl =>
    match deltaCommonGo (deltaF fuel) prevl newl (commonKeysOf prevl newl)
        (deltaInit prevl newl) with
    | .error e => .error e
    | .ok d => .ok (d.isEmpty, if d.isEmpty then .str "\x7brepeat\x7d" else .obj d)
  | _ + 1, .arr prev, .arr new => .ok (deltaList prev new)
  | _ + 1, prev, new => .ok (pyEq prev new, new)

/-- `delta(prev, new)` with sufficient fuel: `.error .indexErr` exactly
on the raising path of the Python function. -/
def deltaE (prev new : JVal) : Except DeltaErr (Bool × JVal) :=
  deltaF (jvalSize prev + jvalSize new + 1) prev new

/-- A dict key that cannot collide with the marker keys the diff engine
manufactures: nonempty and free of the marker characters. -/
def benignStr (k : String) : Bool :=
  !k.data.isEmpty && k.data.all (fun c => c ≠ '-' && c ≠ '+' && c ≠ '*')

/-- All keys of a dict are marker-free. -/
def benignKeys (l : List (String × JVal)) : Bool :=
  l.all (fun kv => benignStr kv.1)

/-! ## `parse_argv` -/

/-- The loop of `parse_argv`; `none` models the `KeyError` raised by
`r[current].append(token)` when `current` is not a key (which happens
exactly when a non-flag token precedes any flag). -/
def parseGo (current : String) (r : List (String × List String)) :
    List String → Option (List (String × List String))
  | [] => some r
  | t :: rest =>
    if strStarts t "--" then parseGo t (dictSet r t []) rest
    else
      match dictGet? r current with
      | none => none
      | some vs => parseGo current (dictSet r current (vs ++ [t])) rest

/-- `parse_argv`: group CLI tokens under the preceding `--flag`. -/
def parse_argv (argv : List String) : Option (List (String × List String)) :=
  parseGo "" [] argv

/-- Specification side of the `parse_argv` claim: the run of non-flag
tokens at the head of a token list. -/
def runAfter : List String → List String
  | [] => []
  | t :: rest => if strStarts t "--" then [] else t :: runAfter rest

/-- Specification side of the `parse_argv` claim: the run of non-flag
tokens following the LAST occurrence of `f`, `none` if `f` never
occurs. -/
def lastRun (f : String) : List String → Option (List String)
  | [] => none
  | t :: rest =>
    match lastRun f rest with
    | some vs => some vs
    | none => if t = f then some (runAfter rest) else none

/-! ## The trace log (`Log`)

The mutable `Log` object is modelled by `LogState`; file-system effects
are modelled structurally: `pathName` is the current file name, `mode`
the lifecycle state, `fileLines` the appended record lines (the preamble
template written on the absent→preambled transition embeds a script file
read from disk at runtime and is tracked by `mode`, not by content).
In-place mutation of shared JSON substructure (the `k3['parts'][0]`
assignment) is modelled with value semantics. -/

/-- The trace-file lifecycle states. -/
inductive LogMode where
  | absent : LogMode
  | preambled : LogMode
  | renamed : LogMode
  deriving DecidableEq

/-- The state of a `Log` object. -/
structure LogState where
  ts : String
  verbose : Bool
  mode : LogMode
  pathName : String
  prevLog : List (String × (JVal × JVal))
  fileLines : List String

/-- `Log.__init__`: timestamp-named path, no file yet. -/
def LogState.init (ts : String) (verbose : Bool) : LogState :=
  ⟨ts, verbose, .absent, ts ++ ".html", [], []⟩

/-- One character of `re.sub` for illegal filename characters. -/
def sanitizeChar (c : Char) : Char :=
  if c = '<' ∨ c = '>' ∨ c = ':' ∨ c = '"' ∨ c = '/' ∨ c = '\\' ∨ c = '|' ∨
      c = '?' ∨ c = '*' ∨ c.toNat < 0x20 then
    '_'
  else c

/-- `re.sub(r'[<>:"/\\|?*\x00-\x1F]', "_", summary).strip(" .")`. -/
def sanitizeSummary (s : String) : String :=
  stripSpaceDot ⟨s.data.map sanitizeChar⟩

/-- `Log._preamble`: the absent → preambled → renamed lifecycle.  Renamed
is terminal; a summary renames only from `preambled` (from `absent` the
mode jumps to `renamed` with the path unchanged). -/
def logPreamble (summary : Option String) (s : LogState) : LogState :=
  if s.mode = .renamed ∨ (s.mode = .preambled ∧ summary = none) then s
  else
    let s :=
      match s.mode, summary with
      | .preambled, some sum =>
        { s with pathName := s.ts ++ " - " ++ strTake (sanitizeSummary sum) 120 ++ ".html" }
      | _, _ => s
    { s with mode := if summary.isSome then .renamed else .preambled }

/-- The fixed blocklist of sensitive header names. -/
def blocklist : List String :=
  ["authorization", "cookie", "set-cookie", "proxy-authorization",
   "x-goog-auth-user", "x-goog-iap-jwt-assertion", "x-goog-api-key", "x-api-key"]

/-- Python `str.lower()` on one character (ASCII range, as the header
names are). -/
def pyLowerChar (c : Char) : Char :=
  if 'A' ≤ c ∧ c ≤ 'Z' then Char.ofNat (c.toNat + 32) else c

/-- Python `k.lower()`. -/
def pyLower (s : String) : String :=
  ⟨s.data.map pyLowerChar⟩

/-- `Log._redact_headers`: replace the value of every blocklisted header
(case-insensitively) by the literal marker, keeping the key. -/
def redact_headers (h : List (String × String)) : List (String × String) :=
  h.map (fun kv => (kv.1, if pyLower kv.1 ∈ blocklist then "[REDACTED]" else kv.2))

/-! ### Python-semantics helpers for the body of `Log.trace` -/

/-- Python `needle in v`; `none` models the `TypeError` on numbers,
booleans and `None`. -/
def pyContainsStr (needle : String) : JVal → Option Bool
  | .obj kvs => some (dictHas kvs needle)
  | .str s => some (strContains s needle)
  | .arr xs =>
    some (xs.any (fun x => match x with | .str t => t = needle | _ => false))
  | _ => none

/-- Python iteration over a value: list elements, dict keys, string
characters; `none` models the `TypeError` on non-iterables. -/
def pyIter : JVal → Option (List JVal)
  | .arr xs => some xs
  | .obj kvs => some (kvs.map (fun kv => .str kv.1))
  | .str s => some (s.data.map (fun c => .str ⟨[c]⟩))
  | _ => none

/-- Python `v.get(k, dflt)`; `none` models the `AttributeError` on
non-dicts. -/
def pyGetDefault (v : JVal) (k : String) (dflt : JVal) : Option JVal :=
  match v with
  | .obj kvs => some ((dictGet? kvs k).getD dflt)
  | _ => none

/-- Python `v[k]` for a string key; `none` models `KeyError`/`TypeError`. -/
def pyIndexStr (v : JVal) (k : String) : Option JVal :=
  match v with
  | .obj kvs => dictGet? kvs k
  | _ => none

/-- Python `len(v)`; `none` models the `TypeError` on scalars. -/
def pyLen : JVal → Option Nat
  | .str s => some s.length
  | .arr xs => some xs.length
  | .obj kvs => some kvs.length
  | _ => none

/-- Python `v[0]`; `none` models `IndexError`/`KeyError`/`TypeError`
(dict keys here are strings, so `d[0]` raises). -/
def pyIndex0 : JVal → Option JVal
  | .arr (x :: _) => some x
  | .str s =>
    match s.data with
    | c :: _ => some (.str ⟨[c]⟩)
    | [] => none
  | _ => none

/-- Is a value the string `"..."`? -/
def isDotsStr : JVal → Bool
  | .str s => s = "..."
  | _ => false

/-- Concatenate a list of optional lists, failing if any failed. -/
def seqConcat {α : Type} : List (Option (List α)) → Option (List α)
  | [] => some []
  | none :: _ => none
  | some xs :: rest => (seqConcat rest).map (xs ++ ·)

/-- One `part` of the title-detection comprehensions: contributes
`part['text']` when `'text' in part` and the value is a string; skips
otherwise; `none` models the `TypeError` when `part` is not subscriptable
by a string although `in` succeeded. -/
def collectTexts1 (part : JVal) : Option (List String) :=
  match pyContainsStr "text" part with
  | none => none
  | some false => some []
  | some true =>
    match part with
    | .obj kvs =>
      match findVal kvs "text" with
      | .str t => some [t]
      | _ => some []
    | _ => none

/-- `for part in content.get('parts', [])` of the request comprehension. -/
def collectFromContent (content : JVal) : Option (List String) :=
  match pyGetDefault content "parts" (.arr []) with
  | none => none
  | some partsv =>
    match pyIter partsv with
    | none => none
    | some parts => seqConcat (parts.map collectTexts1)

/-- The request-side comprehension: all string `text` parts of
`k['contents']`. -/
def requestPartsOf (kv : JVal) : Option (List String) :=
  match pyGetDefault kv "contents" (.obj []) with
  | none => none
  | some contents =>
    match pyIter contents with
    | none => none
    | some cs => seqConcat (cs.map collectFromContent)

/-- One candidate of the response-side comprehension. -/
def respFromCandidate (candidate : JVal) : Option (List String) :=
  match pyGetDefault candidate "content" (.obj []) with
  | none => none
  | some contentv =>
    match pyGetDefault contentv "parts" (.arr []) with
    | none => none
    | some partsv =>
      match pyIter partsv with
      | none => none
      | some parts => seqConcat (parts.map collectTexts1)

/-- One response of the response-side comprehension. -/
def respFromResponse (response : JVal) : Option (List String) :=
  match pyGetDefault response "response" (.obj []) with
  | none => none
  | some r1 =>
    match pyGetDefault r1 "candidates" (.arr []) with
    | none => none
    | some cands =>
      match pyIter cands with
      | none => none
      | some cl => seqConcat (cl.map respFromCandidate)

/-- The `try`-block of `Log.trace` detecting a conversation summary: on
the streaming-generation endpoint, when a request text part carries the
title instruction, the first line of the stripped concatenated response
text; `none` both when there is no summary and when the block raised
(the exception is swallowed and `summary` stays `None`). -/
def summaryCandidate (endpoint : String) (k : Option JVal) (response2 : JVal) :
    Option String :=
  if ¬ strContains endpoint "streamGenerateContent" then none
  else
    match k with
    | none => none
    | some kv =>
      if ¬ pyTruthy kv then none
      else
        match requestPartsOf kv with
        | none => none
        | some parts =>
          if parts.any (strStarts · "Generate a short conversation title") then
            let responses := match response2 with | .arr xs => xs | v => [v]
            match seqConcat (responses.map respFromResponse) with
            | none => none
            | some texts =>
              match pySplitlines (pyStrip (String.join texts)) with
              | [] => none
              | l0 :: _ => some l0
          else none

/-- `k = k['request'] if isinstance(k, dict) and 'request' in k else None`. -/
def extractK (request2 : JVal) : Option JVal :=
  match request2 with
  | .obj kvs => dictGet? kvs "request"
  | _ => none

/-- Build the diff key `label:endpoint[,:systemInstruction]`; `none`
models the uncaught `TypeError` of `'systemInstruction' in k` on a
truthy number/boolean and of `k['systemInstruction']` on a string or
list. -/
def keyStep (label endpoint : String) (k : Option JVal) : Option String :=
  let base := label ++ ":" ++ endpoint
  match k with
  | none => some base
  | some kv =>
    if ¬ pyTruthy kv then some base
    else
      match pyContainsStr "systemInstruction" kv with
      | none => none
      | some false => some base
      | some true =>
        match kv with
        | .obj kvs => some (base ++ ":" ++ pyDumpsCanon (findVal kvs "systemInstruction"))
        | _ => none

/-- `k['systemInstruction']['parts'][0]['text'][:256] + "..."`, the
replacement text of the readability touch-up; `none` on any of the
raising subscripts. -/
def buildReplacement (kv : JVal) : Option String :=
  match pyIndexStr kv "systemInstruction" with
  | none => none
  | some si =>
    match pyIndexStr si "parts" with
    | none => none
    | some partsv =>
      match pyIndex0 partsv with
      | none => none
      | some first =>
        match pyIndexStr first "text" with
        | none => none
        | some textv =>
          match textv with
          | .str t => some (strTake t 256 ++ "...")
          | _ => none

/-- The readability touch-up of `Log.trace` (lines 189–195): when the
delta shows the system instruction collapsed to the `["..."]`
placeholder, replace it with a truncated prefix of the actual
instruction text.  `none` models the uncaught exceptions of the
unguarded subscripts. -/
def mungeStep (k : Option JVal) (request2 : JVal) : Option JVal :=
  match k with
  | none => some request2
  | some kv =>
    if ¬ pyTruthy kv then some request2
    else
      match request2 with
      | .obj k1 =>
        let k2 := (dictGet? k1 "request").getD ((dictGet? k1 "*request").getD (.obj []))
        match k2 with
        | .obj k2kvs =>
          let k3 :=
            (dictGet? k2kvs "systemInstruction").getD
              ((dictGet? k2kvs "*systemInstruction").getD (.obj []))
          if ¬ pyTruthy k3 then some request2
          else
            match pyContainsStr "parts" k3 with
            | none => none
            | some false => some request2
            | some true =>
              match k3 with
              | .obj k3kvs =>
                let pv := findVal k3kvs "parts"
                match pyLen pv with
                | none => none
                | some n =>
                  if n = 0 then some request2
                  else
                    match pyIndex0 pv with
                    | none => none
                    | some first =>
                      if isDotsStr first then
                        match buildReplacement kv with
                        | none => none
                        | some repl =>
                          let newParts :=
                            match pv with
                            | .arr (_ :: xs) => JVal.arr (.obj [("text", .str repl)] :: xs)
                            | other => other
                          let whichSI :=
                            if dictHas k2kvs "systemInstruction" then "systemInstruction"
                            else "*systemInstruction"
                          let whichReq :=
                            if dictHas k1 "request" then "request" else "*request"
                          let newK3 := JVal.obj (dictSet k3kvs "parts" newParts)
                          let newK2 := JVal.obj (dictSet k2kvs whichSI newK3)
                          some (.obj (dictSet k1 whichReq newK2))
                      else some request2
              | _ => none
        | _ => none
      | _ => some request2

/-- The endpoint-specific volume control: on the bookkeeping endpoint
keep only `+`/`-`-prefixed delta keys; `none` models the
`AttributeError` of `.items()` on a non-dict. -/
def cascadeFilter (endpoint : String) (request2 : JVal) : Option JVal :=
  if strContains endpoint "UpdateCascadeTrajectorySummaries" then
    match request2 with
    | .obj kvs =>
      some (.obj (kvs.filter (fun kv => strStarts kv.1 "+" || strStarts kv.1 "-")))
    | _ => none
  else some request2

/-- Lift redacted headers into a JSON value. -/
def headersJ (h : List (String × String)) : JVal :=
  .obj ((redact_headers h).map (fun kv => (kv.1, .str kv.2)))

/-- The record dict `d` of `Log.trace`, in insertion order; bodies are
included when not `None`, headers when supplied. -/
def buildRecord (label endpoint now : String) (request2 : JVal)
    (req_headers : Option (List (String × String))) (response2 : JVal)
    (resp_headers : Option (List (String × String))) : JVal :=
  let d : List (String × JVal) :=
    [("label", .str label), ("endpoint", .str endpoint), ("time", .str now)]
  let d := match request2 with | .null => d | v => d ++ [("request", v)]
  let d := match req_headers with | none => d | some h => d ++ [("req_headers", headersJ h)]
  let d := match response2 with | .null => d | v => d ++ [("response", v)]
  let d := match resp_headers with | none => d | some h => d ++ [("resp_headers", headersJ h)]
  .obj d

/-- `json.dumps(d)` with the `&`, `<`, `>` HTML escapes applied, as
written to the trace file. -/
def serializeRecord (d : JVal) : String :=
  strReplace (strReplace (strReplace (pyDumps d) "&" "&amp;") "<" "&lt;") ">" "&gt;"

/-- The outcome of one `Log.trace` call: dropped by the verbosity
filter, aborted by an uncaught exception, or one appended record line. -/
inductive TraceOut where
  | filtered : TraceOut
  | raised : TraceOut
  | wrote (line : String) : TraceOut

/-- `Log.trace`: the whole append path — verbosity filter, normalization,
summary detection, preamble/rename, diff-key construction, state update,
deltas, readability touch-up, endpoint volume control, redaction and
serialization.  The returned state reflects every mutation performed
before an uncaught exception (`.raised`). -/
def Log.trace (s : LogState) (now : String) (label endpoint : String)
    (request : Option Payload) (req_headers : Option (List (String × String)))
    (response : Option Payload) (resp_headers : Option (List (String × String))) :
    LogState × TraceOut :=
  if ¬ (s.verbose = true ∨ strContains endpoint "streamGenerateContent") then
    (s, .filtered)
  else
    let request2 := pretty request
    let response2 := pretty response
    let k := extractK request2
    let summary := summaryCandidate endpoint k response2
    let s := logPreamble summary s
    match keyStep label endpoint k with
    | none => (s, .raised)
    | some key =>
      let prev := dictGet? s.prevLog key
      let s := { s with prevLog := dictSet s.prevLog key (request2, response2) }
      let dreq : Except DeltaErr (Bool × JVal) :=
        match prev with
        | none => .ok (true, request2)
        | some pr => deltaE pr.1 request2
      match dreq with
      | .error _ => (s, .raised)
      | .ok bq =>
        let dresp : Except DeltaErr (Bool × JVal) :=
          match prev with
          | none => .ok (true, response2)
          | some pr => deltaE pr.2 response2
        match dresp with
        | .error _ => (s, .raised)
        | .ok bp =>
          match mungeStep k bq.2 with
          | none => (s, .raised)
          | some request3 =>
            match cascadeFilter endpoint request3 with
            | none => (s, .raised)
            | some request4 =>
              let line :=
                serializeRecord
                  (buildRecord label endpoint now request4 req_headers bp.2 resp_headers)
              ({ s with fileLines := s.fileLines ++ [line] }, .wrote line)

/-! ## A reference wire-format encoder (for the round-trip property)

Modelled from the spec: the repository contains no encoder, so the
round-trip property quantifies over the buffers of a reference encoder
exercising wire types 0, 1, 2 and 5 (§8 of the design).  Field numbers
are arbitrary (the decoder ignores them); nested messages use the
length-prefixed wire type 2. -/

mutual

/-- One encoded field: a varint, a fixed 64-bit value, a fixed 32-bit
value, or a nested message. -/
inductive PItem where
  | vint (fn : Nat) (n : Nat) : PItem
  | fix64 (fn : Nat) (n : Nat) : PItem
  | fix32 (fn : Nat) (n : Nat) : PItem
  | msg (fn : Nat) (sub : PMsg) : PItem

/-- A message: a sequence of fields. -/
inductive PMsg where
  | nil : PMsg
  | cons (head : PItem) (tail : PMsg) : PMsg

end

/-- Little-endian base-128 varint encoding; the fuel (seeded with the
value itself, which dominates the number of base-128 digits) keeps the
definition structural. -/
def encodeVarintF : Nat → Nat → List Nat
  | 0, n => [n % 128]
  | fuel + 1, n => if n < 128 then [n] else (n % 128 + 128) :: encodeVarintF fuel (n / 128)

/-- Varint encoding of a natural number. -/
def encodeVarint (n : Nat) : List Nat :=
  encodeVarintF n n

/-- `k` little-endian bytes of `n`. -/
def toLE : Nat → Nat → List Nat
  | 0, _ => []
  | k + 1, n => n % 256 :: toLE k (n / 256)

mutual

/-- Encode one field: tag varint `(fn << 3) | wire` followed by the wire
representation. -/
def encodeItem : PItem → List Nat
  | .vint fn n => encodeVarint (8 * fn) ++ encodeVarint n
  | .fix64 fn n => encodeVarint (8 * fn + 1) ++ toLE 8 n
  | .fix32 fn n => encodeVarint (8 * fn + 5) ++ toLE 4 n
  | .msg fn sub => encodeVarint (8 * fn + 2) ++ encodeVarint (encodePMsg sub).length ++ encodePMsg sub

/-- Encode a message: the concatenation of its encoded fields. -/
def encodePMsg : PMsg → List Nat
  | .nil => []
  | .cons h t => encodeItem h ++ encodePMsg t

end

mutual

/-- Well-formedness: fixed-width values fit their width. -/
def itemWF : PItem → Bool
  | .vint _ _ => true
  | .fix64 _ n => n < 2 ^ 64
  | .fix32 _ n => n < 2 ^ 32
  | .msg _ sub => itemsWF sub

/-- Well-formedness of every field of a message. -/
def itemsWF : PMsg → Bool
  | .nil => true
  | .cons h t => itemWF h && itemsWF t

end

/-- Is a message safe for the decoder's map-collapse at its own level: a
single-field message must carry a nested message (a single scalar field
makes the collapse iterate a non-iterable and `pretty_proto` raise)? -/
def singletonOK : PMsg → Bool
  | .cons h .nil =>
    match h with
    | .msg _ _ => true
    | _ => false
  | _ => true

mutual

/-- Collapse-safety of one field, recursively. -/
def itemGood : PItem → Bool
  | .vint _ _ => true
  | .fix64 _ _ => true
  | .fix32 _ _ => true
  | .msg _ sub => itemsGood sub && singletonOK sub

/-- Collapse-safety of every field of a message. -/
def itemsGood : PMsg → Bool
  | .nil => true
  | .cons h t => itemGood h && itemsGood t

end

/-- Collapse-safety of a whole buffer. -/
def msgGood (m : PMsg) : Bool :=
  itemsGood m && singletonOK m

mutual

/-- The structured value a field decodes to (`none` when the nested
collapse raises). -/
def interpItem : PItem → Option JVal
  | .vint _ n => some (.num (Int.ofNat n))
  | .fix64 _ n => some (.num (Int.ofNat n))
  | .fix32 _ n => some (.num (Int.ofNat n))
  | .msg _ sub =>
    match interpList sub with
    | none => none
    | some vs => (collapseE vs).toOption

/-- The structured values the fields of a message decode to. -/
def interpList : PMsg → Option (List JVal)
  | .nil => some []
  | .cons h t =>
    match interpItem h, interpList t with
    | some v, some vs => some (v :: vs)
    | _, _ => none

end

/-- The structured value an encoded buffer decodes to: the decoded field
sequence with the top-level collapse applied. -/
def pmsgValue (m : PMsg) : Option JVal :=
  match interpList m with
  | none => none
  | some vs => (collapseE vs).toOption

/-! ## Lemmas: varint encoding and decoding -/

theorem encodeVarintF_irrel (f₁ : Nat) :
    ∀ f₂ n, n ≤ f₁ → n ≤ f₂ → encodeVarintF f₁ n = encodeVarintF f₂ n := by
  induction f₁ using Nat.strong_induction_on with
  | _ f₁ ih =>
    intro f₂ n h1 h2
    match f₁, f₂ with
    | 0, 0 => rfl
    | 0, b + 1 =>
      have hn : n = 0 := Nat.le_zero.mp h1
      subst hn; simp [encodeVarintF]
    | a + 1, 0 =>
      have hn : n = 0 := Nat.le_zero.mp h2
      subst hn; simp [encodeVarintF]
    | a + 1, b + 1 =>
      simp only [encodeVarintF]
      by_cases hn : n < 128
      · simp [hn]
      · simp only [hn, if_false]
        have hd : n / 128 < n := Nat.div_lt_self (by omega) (by omega)
        congr 1
        exact ih a (by omega) b (n / 128) (by omega) (by omega)

theorem encodeVarint_eq (n : Nat) :
    encodeVarint n = if n < 128 then [n] else (n % 128 + 128) :: encodeVarint (n / 128) := by
  unfold encodeVarint
  match n with
  | 0 => simp [encodeVarintF]
  | m + 1 =>
    simp only [encodeVarintF]
    by_cases h : m + 1 < 128
    · simp [h]
    · simp only [h, if_false]
      have hd : (m + 1) / 128 < m + 1 := Nat.div_lt_self (by omega) (by omega)
      congr 1
      exact encodeVarintF_irrel m ((m + 1) / 128) ((m + 1) / 128) (by omega) (le_refl _)

theorem lor_shift_recompose (n shift : Nat) :
    ((n % 128) <<< shift) ||| ((n / 128) <<< (shift + 7)) = n <<< shift := by
  apply Nat.eq_of_testBit_eq
  intro i
  have hdiv : n / 128 = n >>> 7 := by rw [Nat.shiftRight_eq_div_pow]
  have hmod : n % 128 = n % 2 ^ 7 := rfl
  simp only [Nat.testBit_lor, Nat.testBit_shiftLeft, hdiv, hmod,
    Nat.testBit_mod_two_pow, Nat.testBit_shiftRight]
  by_cases hs : i ≥ shift
  · by_cases h7 : i - shift < 7
    · have hn7 : ¬ i ≥ shift + 7 := by omega
      simp [hs, h7, hn7]
    · by_cases hge : i ≥ shift + 7
      · have harith : 7 + (i - (shift + 7)) = i - shift := by omega
        simp [hs, h7, hge, harith]
      · omega
  · have h1 : ¬ i ≥ shift + 7 := by omega
    simp [hs, h1]

theorem readVarint_enc (n : Nat) :
    ∀ t shift value,
      readVarint (encodeVarint n ++ t) shift value = .ok (value ||| (n <<< shift), t) := by
  induction n using Nat.strong_induction_on with
  | _ n ih =>
    intro t shift value
    rw [encodeVarint_eq]
    by_cases h : n < 128
    · simp only [h, if_true, List.cons_append, List.nil_append, readVarint]
      simp [Nat.mod_eq_of_lt h, h]
    · simp only [h, if_false, List.cons_append, readVarint]
      have hb : ¬ (n % 128 + 128 < 128) := by omega
      have hmod : (n % 128 + 128) % 128 = n % 128 := by omega
      simp only [hb, if_false, hmod]
      have hd : n / 128 < n := Nat.div_lt_self (by omega) (by omega)
      rw [ih (n / 128) hd t (shift + 7) (value ||| ((n % 128) <<< shift))]
      rw [Nat.lor_assoc, lor_shift_recompose]

theorem readVarint_enc0 (n : Nat) (t : List Nat) :
    readVarint (encodeVarint n ++ t) 0 0 = .ok (n, t) := by
  rw [readVarint_enc]
  simp [Nat.shiftLeft_zero]

theorem readVarint_consume :
    ∀ (bs : List Nat) (shift value x : Nat) (rest : List Nat),
      readVarint bs shift value = .ok (x, rest) → rest.length < bs.length := by
  intro bs
  induction bs with
  | nil => intro _ _ _ _ h; simp [readVarint] at h
  | cons b cs ih =>
    intro shift value x rest h
    simp only [readVarint] at h
    by_cases hb : b < 128
    · simp [hb] at h
      simp [← h.2]
    · simp only [hb, if_false] at h
      have := ih _ _ _ _ h
      simp; omega

theorem readVarint_err :
    ∀ (bs : List Nat) (shift value : Nat) (e : WireErr),
      readVarint bs shift value = .error e → e = .truncVarint := by
  intro bs
  induction bs with
  | nil => intro _ _ _ h; simp only [readVarint, Except.error.injEq] at h; exact h.symm
  | cons b cs ih =>
    intro shift value e h
    simp only [readVarint] at h
    by_cases hb : b < 128
    · simp [hb] at h
    · simp only [hb, if_false] at h
      exact ih _ _ _ h

theorem readVarint_append :
    ∀ (bs t : List Nat) (shift value x : Nat) (rest : List Nat),
      readVarint bs shift value = .ok (x, rest) →
      readVarint (bs ++ t) shift value = .ok (x, rest ++ t) := by
  intro bs
  induction bs with
  | nil => intro _ _ _ _ _ h; simp [readVarint] at h
  | cons b cs ih =>
    intro t shift value x rest h
    simp only [readVarint] at h ⊢
    by_cases hb : b < 128
    · simp [hb] at h ⊢
      simp [← h.1, ← h.2]
    · simp only [hb, if_false] at h ⊢
      exact ih _ _ _ _ _ h

theorem readVarint_allCont :
    ∀ (bs : List Nat) (shift value : Nat),
      bs ≠ [] → (∀ b ∈ bs, 128 ≤ b) →
      readVarint bs shift value = .error .truncVarint := by
  intro bs
  induction bs with
  | nil => intro _ _ h; exact absurd rfl h
  | cons b cs ih =>
    intro shift value _ hall
    simp only [readVarint]
    have hb : ¬ b < 128 := by
      have := hall b (by simp)
      omega
    simp only [hb, if_false]
    match cs with
    | [] => simp [readVarint]
    | c :: cs2 =>
      exact ih _ _ (by simp) (fun x hx => hall x (by simp [hx]))

/-! ## Lemmas: fixed-width fields and the decode loop -/

theorem toLE_length (k : Nat) : ∀ n, (toLE k n).length = k := by
  induction k with
  | zero => intro n; rfl
  | succ k ih => intro n; simp [toLE, ih]

theorem fromLE_toLE (k : Nat) : ∀ n, n < 2 ^ (8 * k) → fromLE (toLE k n) = n := by
  induction k with
  | zero =>
    intro n h
    simp at h
    simp [h, toLE, fromLE]
  | succ k ih =>
    intro n h
    have hsplit : 2 ^ (8 * (k + 1)) = 2 ^ (8 * k) * 256 := by
      rw [show 8 * (k + 1) = 8 * k + 8 by omega, pow_add]
      norm_num
    have hdiv : n / 256 < 2 ^ (8 * k) := by
      apply Nat.div_lt_of_lt_mul
      omega
    simp only [toLE, fromLE, List.foldr_cons]
    have := ih (n / 256) hdiv
    simp only [fromLE] at this
    rw [this]
    exact Nat.mod_add_div n 256

theorem decodeLoop_irrel (f₁ : Nat) :
    ∀ f₂ bs, bs.length < f₁ → bs.length < f₂ → decodeLoop f₁ bs = decodeLoop f₂ bs := by
  induction f₁ using Nat.strong_induction_on with
  | _ f₁ ih =>
    intro f₂ bs h1 h2
    match f₁, f₂ with
    | a + 1, b + 1 =>
      match bs with
      | [] => simp [decodeLoop]
      | c :: cs =>
        have hcs : cs.length < a := by simpa using h1
        have hcs2 : cs.length < b := by simpa using h2
        simp only [decodeLoop]
        cases hrv : readVarint (c :: cs) 0 0 with
        | error e => rfl
        | ok p =>
          obtain ⟨key, rest⟩ := p
          have hrest : rest.length < (c :: cs).length :=
            readVarint_consume _ _ _ _ _ hrv
          simp only [List.length_cons] at hrest
          by_cases h0 : key % 8 = 0
          · simp only [h0, if_true]
            cases hrv2 : readVarint rest 0 0 with
            | error e => rfl
            | ok q =>
              obtain ⟨v, rest2⟩ := q
              dsimp only
              have hr2 : rest2.length < rest.length :=
                readVarint_consume _ _ _ _ _ hrv2
              rw [ih a (by omega) b rest2 (by omega) (by omega)]
          · simp only [h0, if_false]
            by_cases h1' : key % 8 = 1
            · simp only [h1', if_true]
              by_cases hlen : 8 ≤ rest.length
              · simp only [hlen, if_true]
                rw [ih a (by omega) b (rest.drop 8) (by simp; omega) (by simp; omega)]
              · simp [hlen]
            · simp only [h1', if_false]
              by_cases h2' : key % 8 = 2
              · simp only [h2', if_true]
                cases hrv2 : readVarint rest 0 0 with
                | error e => rfl
                | ok q =>
                  obtain ⟨len, rest2⟩ := q
                  dsimp only
                  have hr2 : rest2.length < rest.length :=
                    readVarint_consume _ _ _ _ _ hrv2
                  by_cases hlen : len ≤ rest2.length
                  · simp only [hlen, if_true]
                    have htake : (rest2.take len).length < a := by simp; omega
                    have htake2 : (rest2.take len).length < b := by simp; omega
                    rw [ih a (by omega) b (rest2.drop len) (by simp; omega) (by simp; omega)]
                    rw [ih a (by omega) b (rest2.take len) htake htake2]
                  · simp [hlen]
              · simp only [h2', if_false]
                by_cases h5 : key % 8 = 5
                · simp only [h5, if_true]
                  by_cases hlen : 4 ≤ rest.length
                  · simp only [hlen, if_true]
                    rw [ih a (by omega) b (rest.drop 4) (by simp; omega) (by simp; omega)]
                  · simp [hlen]
                · simp [h5]

theorem prettyBytes_irrel (f₁ f₂ : Nat) (bs : List Nat)
    (h1 : bs.length < f₁) (h2 : bs.length < f₂) :
    prettyBytes f₁ bs = prettyBytes f₂ bs := by
  simp only [prettyBytes]
  rw [decodeLoop_irrel f₁ f₂ bs h1 h2]

theorem decodeLoop_no_fuelOut (f : Nat) :
    ∀ bs, bs.length < f → decodeLoop f bs ≠ .error .fuelOut := by
  induction f using Nat.strong_induction_on with
  | _ f ih =>
    intro bs hf
    match f, bs with
    | a + 1, [] => simp [decodeLoop]
    | a + 1, c :: cs =>
      have hcs : cs.length < a := by simpa using hf
      simp only [decodeLoop]
      cases hrv : readVarint (c :: cs) 0 0 with
      | error e =>
        have := readVarint_err _ _ _ _ hrv
        simp [this]
      | ok p =>
        obtain ⟨key, rest⟩ := p
        have hrest : rest.length < (c :: cs).length :=
          readVarint_consume _ _ _ _ _ hrv
        simp only [List.length_cons] at hrest
        by_cases h0 : key % 8 = 0
        · simp only [h0, if_true]
          cases hrv2 : readVarint rest 0 0 with
          | error e =>
            have := readVarint_err _ _ _ _ hrv2
            simp [this]
          | ok q =>
            obtain ⟨v, rest2⟩ := q
            dsimp only
            have hr2 : rest2.length < rest.length :=
              readVarint_consume _ _ _ _ _ hrv2
            have := ih a (by omega) rest2 (by omega)
            intro hcon
            cases hdl : decodeLoop a rest2 with
            | error e => rw [hdl] at hcon; simp [Except.map] at hcon; simp_all
            | ok out => rw [hdl] at hcon; simp [Except.map] at hcon
        · simp only [h0, if_false]
          by_cases h1' : key % 8 = 1
          · simp only [h1', if_true]
            by_cases hlen : 8 ≤ rest.length
            · simp only [hlen, if_true]
              have := ih a (by omega) (rest.drop 8) (by simp; omega)
              intro hcon
              cases hdl : decodeLoop a (rest.drop 8) with
              | error e => rw [hdl] at hcon; simp [Except.map] at hcon; simp_all
              | ok out => rw [hdl] at hcon; simp [Except.map] at hcon
            · simp [hlen]
          · simp only [h1', if_false]
            by_cases h2' : key % 8 = 2
            · simp only [h2', if_true]
              cases hrv2 : readVarint rest 0 0 with
              | error e =>
                have := readVarint_err _ _ _ _ hrv2
                simp [this]
              | ok q =>
                obtain ⟨len, rest2⟩ := q
                dsimp only
                have hr2 : rest2.length < rest.length :=
                  readVarint_consume _ _ _ _ _ hrv2
                by_cases hlen : len ≤ rest2.length
                · simp only [hlen, if_true]
                  have := ih a (by omega) (rest2.drop len) (by simp; omega)
                  intro hcon
                  cases hdl : decodeLoop a (rest2.drop len) with
                  | error e => rw [hdl] at hcon; simp [Except.map] at hcon; simp_all
                  | ok out => rw [hdl] at hcon; simp [Except.map] at hcon
                · simp [hlen]
            · simp only [h2', if_false]
              by_cases h5 : key % 8 = 5
              · simp only [h5, if_true]
                by_cases hlen : 4 ≤ rest.length
                · simp only [hlen, if_true]
                  have := ih a (by omega) (rest.drop 4) (by simp; omega)
                  intro hcon
                  cases hdl : decodeLoop a (rest.drop 4) with
                  | error e => rw [hdl] at hcon; simp [Except.map] at hcon; simp_all
                  | ok out => rw [hdl] at hcon; simp [Except.map] at hcon
                · simp [hlen]
              · simp [h5]

theorem decodeLoop_append :
    ∀ (n : Nat) (bs : List Nat), bs.length ≤ n →
      ∀ (t : List Nat) (f vs), bs.length < f → decodeLoop f bs = .ok vs →
        decodeLoop (bs.length + t.length + 1) (bs ++ t) =
          (decodeLoop (t.length + 1) t).map (fun out => vs ++ out) := by
  intro n
  induction n using Nat.strong_induction_on with
  | _ n ih =>
    intro bs hbsn t f vs hf hok
    match bs with
    | [] =>
      have hvs : vs = [] := by
        match f, hok with
        | a + 1, hok => simpa [decodeLoop] using hok.symm
      subst hvs
      simp only [List.nil_append, List.length_nil, Nat.zero_add]
      cases decodeLoop (t.length + 1) t <;> simp [Except.map]
    | c :: cs =>
      match f with
      | a + 1 =>
        have hcs : cs.length < a := by simpa using hf
        have hn : cs.length + 1 ≤ n := by simpa using hbsn
        simp only [decodeLoop] at hok
        cases hrv : readVarint (c :: cs) 0 0 with
        | error e => rw [hrv] at hok; simp at hok
        | ok p =>
          obtain ⟨key, rest⟩ := p
          rw [hrv] at hok
          dsimp only at hok
          have hrest : rest.length < (c :: cs).length :=
            readVarint_consume _ _ _ _ _ hrv
          simp only [List.length_cons] at hrest
          have hrvapp := readVarint_append (c :: cs) t 0 0 key rest hrv
          rw [List.cons_append]
          simp only [decodeLoop, List.length_cons]
          rw [show readVarint (c :: (cs ++ t)) 0 0 = Except.ok (key, rest ++ t) from hrvapp]
          dsimp only
          by_cases h0 : key % 8 = 0
          · simp only [h0, if_true] at hok ⊢
            cases hrv2 : readVarint rest 0 0 with
            | error e => rw [hrv2] at hok; simp at hok
            | ok q =>
              obtain ⟨v, rest2⟩ := q
              rw [hrv2] at hok
              dsimp only at hok
              have hrvapp2 := readVarint_append rest t 0 0 v rest2 hrv2
              rw [hrvapp2]
              dsimp only
              have hr2 : rest2.length < rest.length :=
                readVarint_consume _ _ _ _ _ hrv2
              obtain ⟨vs2, hvs2, hvseq⟩ :
                  ∃ vs2, decodeLoop a rest2 = .ok vs2 ∧ vs = .num (Int.ofNat v) :: vs2 := by
                cases hdl : decodeLoop a rest2 with
                | error e => rw [hdl] at hok; simp [Except.map] at hok
                | ok out => rw [hdl] at hok; simp [Except.map] at hok; exact ⟨out, rfl, hok.symm⟩
              have happ := ih rest2.length (by omega) rest2 (le_refl _) t a vs2 (by omega) hvs2
              have hirr :
                  decodeLoop (cs.length + 1 + t.length) (rest2 ++ t) =
                    decodeLoop (rest2.length + t.length + 1) (rest2 ++ t) := by
                apply decodeLoop_irrel <;> simp <;> omega
              rw [hirr, happ, hvseq]
              cases decodeLoop (t.length + 1) t <;> simp [Except.map]
          · simp only [h0, if_false] at hok ⊢
            by_cases h1' : key % 8 = 1
            · simp only [h1', if_true] at hok ⊢
              by_cases hlen : 8 ≤ rest.length
              · simp only [hlen, if_true] at hok
                have hlen2 : 8 ≤ (rest ++ t).length := by simp; omega
                simp only [hlen2, if_true]
                rw [List.take_append_of_le_length hlen, List.drop_append_of_le_length hlen]
                obtain ⟨vs2, hvs2, hvseq⟩ :
                    ∃ vs2, decodeLoop a (rest.drop 8) = .ok vs2 ∧
                      vs = .num (Int.ofNat (fromLE (rest.take 8))) :: vs2 := by
                  cases hdl : decodeLoop a (rest.drop 8) with
                  | error e => rw [hdl] at hok; simp [Except.map] at hok
                  | ok out => rw [hdl] at hok; simp [Except.map] at hok; exact ⟨out, rfl, hok.symm⟩
                have hdroplen : (rest.drop 8).length < a := by simp; omega
                have happ := ih (rest.drop 8).length (by simp; omega) (rest.drop 8) (le_refl _) t a vs2
                  (by simp; omega) hvs2
                have hirr :
                    decodeLoop (cs.length + 1 + t.length) (rest.drop 8 ++ t) =
                      decodeLoop ((rest.drop 8).length + t.length + 1) (rest.drop 8 ++ t) := by
                  apply decodeLoop_irrel <;> simp <;> omega
                rw [hirr, happ, hvseq]
                cases decodeLoop (t.length + 1) t <;> simp [Except.map]
              · simp [hlen] at hok
            · simp only [h1', if_false] at hok ⊢
              by_cases h2' : key % 8 = 2
              · simp only [h2', if_true] at hok ⊢
                cases hrv2 : readVarint rest 0 0 with
                | error e => rw [hrv2] at hok; simp at hok
                | ok q =>
                  obtain ⟨len, rest2⟩ := q
                  rw [hrv2] at hok
                  dsimp only at hok
                  have hrvapp2 := readVarint_append rest t 0 0 len rest2 hrv2
                  rw [hrvapp2]
                  dsimp only
                  have hr2 : rest2.length < rest.length :=
                    readVarint_consume _ _ _ _ _ hrv2
                  by_cases hlen : len ≤ rest2.length
                  · simp only [hlen, if_true] at hok
                    have hlen2 : len ≤ (rest2 ++ t).length := by simp; omega
                    simp only [hlen2, if_true]
                    rw [List.take_append_of_le_length hlen, List.drop_append_of_le_length hlen]
                    obtain ⟨vs2, hvs2, hvseq⟩ :
                        ∃ vs2, decodeLoop a (rest2.drop len) = .ok vs2 ∧
                          vs = prettyBytesCore ((decodeLoop a (rest2.take len)).bind collapseE)
                            (rest2.take len) :: vs2 := by
                      cases hdl : decodeLoop a (rest2.drop len) with
                      | error e => rw [hdl] at hok; simp [Except.map] at hok
                      | ok out => rw [hdl] at hok; simp [Except.map] at hok; exact ⟨out, rfl, hok.symm⟩
                    have happ := ih (rest2.drop len).length (by simp; omega) (rest2.drop len)
                      (le_refl _) t a vs2 (by simp; omega) hvs2
                    have hirr :
                        decodeLoop (cs.length + 1 + t.length) (rest2.drop len ++ t) =
                          decodeLoop ((rest2.drop len).length + t.length + 1) (rest2.drop len ++ t) := by
                      apply decodeLoop_irrel <;> simp <;> omega
                    rw [hirr, happ, hvseq]
                    have hpb :
                        decodeLoop (cs.length + 1 + t.length) (rest2.take len) =
                          decodeLoop a (rest2.take len) := by
                      apply decodeLoop_irrel <;> simp <;> omega
                    rw [hpb]
                    cases decodeLoop (t.length + 1) t <;> simp [Except.map]
                  · simp [hlen] at hok
              · simp only [h2', if_false] at hok ⊢
                by_cases h5 : key % 8 = 5
                · simp only [h5, if_true] at hok ⊢
                  by_cases hlen : 4 ≤ rest.length
                  · simp only [hlen, if_true] at hok
                    have hlen2 : 4 ≤ (rest ++ t).length := by simp; omega
                    simp only [hlen2, if_true]
                    rw [List.take_append_of_le_length hlen, List.drop_append_of_le_length hlen]
                    obtain ⟨vs2, hvs2, hvseq⟩ :
                        ∃ vs2, decodeLoop a (rest.drop 4) = .ok vs2 ∧
                          vs = .num (Int.ofNat (fromLE (rest.take 4))) :: vs2 := by
                      cases hdl : decodeLoop a (rest.drop 4) with
                      | error e => rw [hdl] at hok; simp [Except.map] at hok
                      | ok out => rw [hdl] at hok; simp [Except.map] at hok; exact ⟨out, rfl, hok.symm⟩
                    have happ := ih (rest.drop 4).length (by simp; omega) (rest.drop 4) (le_refl _)
                      t a vs2 (by simp; omega) hvs2
                    have hirr :
                        decodeLoop (cs.length + 1 + t.length) (rest.drop 4 ++ t) =
                          decodeLoop ((rest.drop 4).length + t.length + 1) (rest.drop 4 ++ t) := by
                      apply decodeLoop_irrel <;> simp <;> omega
                    rw [hirr, happ, hvseq]
                    cases decodeLoop (t.length + 1) t <;> simp [Except.map]
                  · simp [hlen] at hok
                · simp [h5] at hok

/-! ## Lemmas: interpretation of encoded messages -/

/-- Is a field a nested message? -/
def isMsgItem : PItem → Bool
  | .msg _ _ => true
  | _ => false

/-- Is a value a sequence or a mapping (a Python iterable that the
collapse can inspect without raising)? -/
def isContainer : JVal → Bool
  | .arr _ => true
  | .obj _ => true
  | _ => false

theorem collapseE_shape (xs : List JVal) (v : JVal) (h : collapseE xs = .ok v) :
    isContainer v = true := by
  match xs with
  | [x] =>
    match x with
    | .arr ys =>
      simp only [collapseE] at h
      by_cases hp : ys.all isPairEntry
      · simp [hp] at h; simp [← h, isContainer]
      · simp [hp] at h; simp [← h, isContainer]
    | .obj kvs =>
      simp only [collapseE] at h
      by_cases hp : kvs.isEmpty
      · simp [hp] at h; simp [← h, isContainer]
      · simp [hp] at h; simp [← h, isContainer]
    | .str s =>
      simp only [collapseE] at h
      by_cases hp : s.isEmpty
      · simp [hp] at h; simp [← h, isContainer]
      · simp [hp] at h; simp [← h, isContainer]
    | .null => simp [collapseE] at h
    | .bool b => simp [collapseE] at h
    | .num i => simp [collapseE] at h
  | [] =>
    simp only [collapseE, Except.ok.injEq] at h
    rw [← h]
    rfl
  | x :: y :: rest =>
    simp only [collapseE, Except.ok.injEq] at h
    rw [← h]
    rfl

theorem interpList_cons_inv (h : PItem) (t : PMsg) (vs : List JVal)
    (hyp : interpList (.cons h t) = some vs) :
    ∃ v vs', interpItem h = some v ∧ interpList t = some vs' ∧ vs = v :: vs' := by
  simp only [interpList] at hyp
  cases hh : interpItem h with
  | none => rw [hh] at hyp; simp at hyp
  | some v =>
    cases ht : interpList t with
    | none => rw [hh, ht] at hyp; simp at hyp
    | some vs' =>
      rw [hh, ht] at hyp
      simp at hyp
      exact ⟨v, vs', rfl, rfl, hyp.symm⟩

theorem interpItem_msg_container (fn : Nat) (sub : PMsg) (v : JVal)
    (h : interpItem (.msg fn sub) = some v) : isContainer v = true := by
  simp only [interpItem] at h
  cases hs : interpList sub with
  | none => rw [hs] at h; simp at h
  | some vs =>
    rw [hs] at h
    dsimp only at h
    cases hc : collapseE vs with
    | error e => rw [hc] at h; simp [Except.toOption] at h
    | ok w =>
      rw [hc] at h
      simp [Except.toOption] at h
      rw [← h]
      exact collapseE_shape vs w hc

theorem collapseE_ok_of_good (m : PMsg) (vs : List JVal)
    (hgood : singletonOK m = true) (hint : interpList m = some vs) :
    ∃ v, collapseE vs = .ok v := by
  match m with
  | .nil =>
    have : vs = [] := by simpa [interpList] using hint.symm
    subst this
    exact ⟨.arr [], rfl⟩
  | .cons h .nil =>
    obtain ⟨v, vs', hv, hvs', heq⟩ := interpList_cons_inv h .nil vs hint
    have hvs'nil : vs' = [] := by simpa [interpList] using hvs'.symm
    subst hvs'nil heq
    match h with
    | .msg fn sub =>
      have hcont := interpItem_msg_container fn sub v hv
      match v with
      | .arr ys =>
        by_cases hp : ys.all isPairEntry
        · exact ⟨.obj (pyDictOfPairs ys), by simp [collapseE, hp]⟩
        · exact ⟨.arr [.arr ys], by simp [collapseE, hp]⟩
      | .obj kvs =>
        by_cases hp : kvs.isEmpty
        · exact ⟨.obj [], by simp [collapseE, hp]⟩
        · exact ⟨.arr [.obj kvs], by simp [collapseE, hp]⟩
      | .null => simp [isContainer] at hcont
      | .bool b => simp [isContainer] at hcont
      | .num i => simp [isContainer] at hcont
      | .str s => simp [isContainer] at hcont
    | .vint fn n => simp [singletonOK] at hgood
    | .fix64 fn n => simp [singletonOK] at hgood
    | .fix32 fn n => simp [singletonOK] at hgood
  | .cons h (.cons h2 t2) =>
    obtain ⟨v, vs', hv, hvs', heq⟩ := interpList_cons_inv h (.cons h2 t2) vs hint
    obtain ⟨v2, vs'', hv2, hvs'', heq2⟩ := interpList_cons_inv h2 t2 vs' hvs'
    subst heq2 heq
    exact ⟨.arr (v :: v2 :: vs''), rfl⟩

mutual

theorem interpItem_some : ∀ it : PItem, itemGood it = true → ∃ v, interpItem it = some v
  | .vint fn n, _ => ⟨.num (Int.ofNat n), rfl⟩
  | .fix64 fn n, _ => ⟨.num (Int.ofNat n), rfl⟩
  | .fix32 fn n, _ => ⟨.num (Int.ofNat n), rfl⟩
  | .msg fn sub, hgood => by
    have hparts : itemsGood sub = true ∧ singletonOK sub = true := by
      simpa [itemGood, Bool.and_eq_true] using hgood
    obtain ⟨vs, hvs⟩ := interpList_some sub hparts.1
    obtain ⟨v, hv⟩ := collapseE_ok_of_good sub vs hparts.2 hvs
    refine ⟨v, ?_⟩
    simp only [interpItem]
    rw [hvs]
    dsimp only
    rw [hv]
    rfl

theorem interpList_some : ∀ m : PMsg, itemsGood m = true → ∃ vs, interpList m = some vs
  | .nil, _ => ⟨[], rfl⟩
  | .cons h t, hgood => by
    have hparts : itemGood h = true ∧ itemsGood t = true := by
      simpa [itemsGood, Bool.and_eq_true] using hgood
    obtain ⟨v, hv⟩ := interpItem_some h hparts.1
    obtain ⟨vs, hvs⟩ := interpList_some t hparts.2
    exact ⟨v :: vs, by simp only [interpList]; rw [hv, hvs]⟩

end

/-! ## Lemmas: unfolding and small facts -/

theorem encodeVarint_length_pos (n : Nat) : 0 < (encodeVarint n).length := by
  rw [encodeVarint_eq]
  by_cases h : n < 128 <;> simp [h]

theorem encodeItem_length_pos (it : PItem) : 0 < (encodeItem it).length := by
  match it with
  | .vint fn n => simp [encodeItem]; have := encodeVarint_length_pos (8 * fn); omega
  | .fix64 fn n => simp [encodeItem]; have := encodeVarint_length_pos (8 * fn + 1); omega
  | .fix32 fn n => simp [encodeItem]; have := encodeVarint_length_pos (8 * fn + 5); omega
  | .msg fn sub => simp [encodeItem]; have := encodeVarint_length_pos (8 * fn + 2); omega

theorem decodeLoop_step (f : Nat) (bs : List Nat) (hne : bs ≠ []) :
    decodeLoop (f + 1) bs =
      match readVarint bs 0 0 with
      | .error e => .error e
      | .ok (key, rest) =>
        if key % 8 = 0 then
          match readVarint rest 0 0 with
          | .error e => .error e
          | .ok (v, rest2) => (decodeLoop f rest2).map (fun out => .num (Int.ofNat v) :: out)
        else if key % 8 = 1 then
          if 8 ≤ rest.length then
            (decodeLoop f (rest.drop 8)).map
              (fun out => .num (Int.ofNat (fromLE (rest.take 8))) :: out)
          else .error .fix64OOB
        else if key % 8 = 2 then
          match readVarint rest 0 0 with
          | .error e => .error e
          | .ok (len, rest2) =>
            if len ≤ rest2.length then
              (decodeLoop f (rest2.drop len)).map
                (fun out => prettyBytes f (rest2.take len) :: out)
            else .error .blobOOB
        else if key % 8 = 5 then
          if 4 ≤ rest.length then
            (decodeLoop f (rest.drop 4)).map
              (fun out => .num (Int.ofNat (fromLE (rest.take 4))) :: out)
          else .error .fix32OOB
        else .error .badWire := by
  match bs with
  | [] => exact absurd rfl hne
  | c :: cs => rfl

/-! ## The round-trip theorem -/

theorem decode_enc_main : ∀ n : Nat,
    (∀ it : PItem, (encodeItem it).length ≤ n → itemWF it = true → itemGood it = true →
      ∀ f, (encodeItem it).length < f →
        ∃ v, interpItem it = some v ∧ decodeLoop f (encodeItem it) = .ok [v])
    ∧
    (∀ m : PMsg, (encodePMsg m).length ≤ n → itemsWF m = true → itemsGood m = true →
      ∀ f, (encodePMsg m).length < f →
        ∃ vs, interpList m = some vs ∧ decodeLoop f (encodePMsg m) = .ok vs) := by
  intro n
  induction n using Nat.strong_induction_on with
  | _ n ih =>
    have hitem : ∀ it : PItem,
        (encodeItem it).length ≤ n → itemWF it = true → itemGood it = true →
        ∀ f, (encodeItem it).length < f →
          ∃ v, interpItem it = some v ∧ decodeLoop f (encodeItem it) = .ok [v] := by
      intro it hlen hwf hgood f hf
      match it with
      | .vint fn m =>
        have hp1 := encodeVarint_length_pos (8 * fn)
        have hp2 := encodeVarint_length_pos m
        simp only [encodeItem, List.length_append] at hlen hf
        obtain ⟨a, rfl⟩ : ∃ a, f = a + 1 := ⟨f - 1, by omega⟩
        refine ⟨.num (Int.ofNat m), rfl, ?_⟩
        rw [show encodeItem (.vint fn m) = encodeVarint (8 * fn) ++ encodeVarint m from rfl]
        rw [decodeLoop_step]
        · rw [readVarint_enc0 (8 * fn) (encodeVarint m)]
          dsimp only
          have h0 : 8 * fn % 8 = 0 := Nat.mul_mod_right 8 fn
          simp only [h0, if_true, reduceIte]
          have hv := readVarint_enc0 m []
          rw [List.append_nil] at hv
          rw [hv]
          dsimp only
          obtain ⟨b, rfl⟩ : ∃ b, a = b + 1 := ⟨a - 1, by omega⟩
          simp [decodeLoop, Except.map]
        · intro hcon
          have hlz := congrArg List.length hcon
          simp only [List.length_append, List.length_nil] at hlz
          omega
      | .fix64 fn m =>
        have hwf' : m < 2 ^ 64 := by simpa [itemWF] using hwf
        have hp1 := encodeVarint_length_pos (8 * fn + 1)
        have hlenLE := toLE_length 8 m
        simp only [encodeItem, List.length_append] at hlen hf
        obtain ⟨a, rfl⟩ : ∃ a, f = a + 1 := ⟨f - 1, by omega⟩
        refine ⟨.num (Int.ofNat m), rfl, ?_⟩
        rw [show encodeItem (.fix64 fn m) = encodeVarint (8 * fn + 1) ++ toLE 8 m from rfl]
        rw [decodeLoop_step]
        · rw [readVarint_enc0 (8 * fn + 1) (toLE 8 m)]
          dsimp only
          have h1 : (8 * fn + 1) % 8 = 1 := by omega
          simp only [h1, reduceIte, hlenLE, le_refl, if_true]
          rw [List.take_of_length_le (le_of_eq hlenLE), List.drop_eq_nil_of_le (le_of_eq hlenLE)]
          rw [fromLE_toLE 8 m (by norm_num at hwf' ⊢; omega)]
          obtain ⟨b, rfl⟩ : ∃ b, a = b + 1 := ⟨a - 1, by omega⟩
          simp [decodeLoop, Except.map]
        · intro hcon
          have hlz := congrArg List.length hcon
          simp only [List.length_append, List.length_nil] at hlz
          omega
      | .fix32 fn m =>
        have hwf' : m < 2 ^ 32 := by simpa [itemWF] using hwf
        have hp1 := encodeVarint_length_pos (8 * fn + 5)
        have hlenLE := toLE_length 4 m
        simp only [encodeItem, List.length_append] at hlen hf
        obtain ⟨a, rfl⟩ : ∃ a, f = a + 1 := ⟨f - 1, by omega⟩
        refine ⟨.num (Int.ofNat m), rfl, ?_⟩
        rw [show encodeItem (.fix32 fn m) = encodeVarint (8 * fn + 5) ++ toLE 4 m from rfl]
        rw [decodeLoop_step]
        · rw [readVarint_enc0 (8 * fn + 5) (toLE 4 m)]
          dsimp only
          have h5 : (8 * fn + 5) % 8 = 5 := by omega
          simp only [h5, reduceIte, hlenLE, le_refl, if_true]
          rw [List.take_of_length_le (le_of_eq hlenLE), List.drop_eq_nil_of_le (le_of_eq hlenLE)]
          rw [fromLE_toLE 4 m (by norm_num at hwf' ⊢; omega)]
          obtain ⟨b, rfl⟩ : ∃ b, a = b + 1 := ⟨a - 1, by omega⟩
          simp [decodeLoop, Except.map]
        · intro hcon
          have hlz := congrArg List.length hcon
          simp only [List.length_append, List.length_nil] at hlz
          omega
      | .msg fn sub =>
        have hwf' : itemsWF sub = true := by simpa [itemWF] using hwf
        have hgood' : itemsGood sub = true ∧ singletonOK sub = true := by
          simpa [itemGood, Bool.and_eq_true] using hgood
        have hp1 := encodeVarint_length_pos (8 * fn + 2)
        have hp2 := encodeVarint_length_pos (encodePMsg sub).length
        simp only [encodeItem, List.length_append] at hlen hf
        have hlensub : (encodePMsg sub).length < n := by omega
        obtain ⟨vs, hvs, hdec⟩ := (ih (encodePMsg sub).length hlensub).2 sub (le_refl _)
          hwf' hgood'.1 ((encodePMsg sub).length + 1) (by omega)
        obtain ⟨v, hcol⟩ := collapseE_ok_of_good sub vs hgood'.2 hvs
        refine ⟨v, ?_, ?_⟩
        · simp only [interpItem]
          rw [hvs]
          dsimp only
          rw [hcol]
          rfl
        · obtain ⟨a, rfl⟩ : ∃ a, f = a + 1 := ⟨f - 1, by omega⟩
          rw [show encodeItem (.msg fn sub) =
            encodeVarint (8 * fn + 2) ++ encodeVarint (encodePMsg sub).length ++ encodePMsg sub
            from rfl, List.append_assoc]
          rw [decodeLoop_step]
          · rw [readVarint_enc0 (8 * fn + 2) (encodeVarint (encodePMsg sub).length ++ encodePMsg sub)]
            dsimp only
            have h2 : (8 * fn + 2) % 8 = 2 := by omega
            simp only [h2, reduceIte]
            rw [readVarint_enc0 (encodePMsg sub).length (encodePMsg sub)]
            dsimp only
            simp only [le_refl, if_true]
            rw [List.take_of_length_le (le_refl (encodePMsg sub).length),
              List.drop_eq_nil_of_le (le_refl (encodePMsg sub).length)]
            have hpb : prettyBytes a (encodePMsg sub) = v := by
              simp only [prettyBytes]
              have hdec' : decodeLoop a (encodePMsg sub) = .ok vs := by
                rw [decodeLoop_irrel a ((encodePMsg sub).length + 1) (encodePMsg sub)
                  (by omega) (by omega)]
                exact hdec
              rw [hdec']
              simp only [Except.bind]
              rw [hcol]
              rfl
            rw [hpb]
            obtain ⟨b, rfl⟩ : ∃ b, a = b + 1 := ⟨a - 1, by omega⟩
            simp [decodeLoop, Except.map]
          · intro hcon
            have hlz := congrArg List.length hcon
            simp only [List.length_append, List.length_nil] at hlz
            omega
    refine ⟨hitem, ?_⟩
    intro m hlen hwf hgood f hf
    match m with
    | .nil =>
      obtain ⟨a, rfl⟩ : ∃ a, f = a + 1 := ⟨f - 1, by omega⟩
      exact ⟨[], rfl, by simp [encodePMsg, decodeLoop]⟩
    | .cons h t =>
      have hparts : itemWF h = true ∧ itemsWF t = true := by
        simpa [itemsWF, Bool.and_eq_true] using hwf
      have hgparts : itemGood h = true ∧ itemsGood t = true := by
        simpa [itemsGood, Bool.and_eq_true] using hgood
      have hlh := encodeItem_length_pos h
      have hlen' : (encodeItem h).length + (encodePMsg t).length ≤ n := by
        simpa [encodePMsg] using hlen
      obtain ⟨v, hv, hdech⟩ := hitem h (by omega) hparts.1 hgparts.1
        ((encodeItem h).length + 1) (by omega)
      obtain ⟨vs, hvs, hdect⟩ := (ih (n - 1) (by omega)).2 t (by omega) hparts.2 hgparts.2
        ((encodePMsg t).length + 1) (by omega)
      refine ⟨v :: vs, ?_, ?_⟩
      · simp only [interpList]
        rw [hv, hvs]
      · have happ := decodeLoop_append (encodeItem h).length (encodeItem h) (le_refl _)
          (encodePMsg t) ((encodeItem h).length + 1) [v] (by omega) hdech
        rw [hdect] at happ
        have hirr : decodeLoop f (encodePMsg (.cons h t)) =
            decodeLoop ((encodeItem h).length + (encodePMsg t).length + 1)
              (encodeItem h ++ encodePMsg t) := by
          simp only [encodePMsg]
          apply decodeLoop_irrel
          · simpa [encodePMsg] using hf
          · simp
        rw [hirr, happ]
        simp [Except.map]

instance {e a : Type} [DecidableEq e] [DecidableEq a] : DecidableEq (Except e a) := fun x y =>
  match x, y with
  | .ok v, .ok w => if h : v = w then .isTrue (by rw [h]) else .isFalse (by simp [h])
  | .error v, .error w => if h : v = w then .isTrue (by rw [h]) else .isFalse (by simp [h])
  | .ok _, .error _ => .isFalse (by simp)
  | .error _, .ok _ => .isFalse (by simp)

/-- `readVarint` of a single-byte value. -/
theorem readVarint_single (b : Nat) (t : List Nat) (hb : b < 128) :
    readVarint (b :: t) 0 0 = .ok (b, t) := by
  have h := readVarint_enc0 b t
  rw [show encodeVarint b = [b] by rw [encodeVarint_eq]; simp [hb]] at h
  simpa using h

/-- `collapseE` can only fail with the `TypeError` marker. -/
theorem collapseE_err (xs : List JVal) (e : WireErr) (h : collapseE xs = .error e) :
    e = .collapseTypeErr := by
  match xs with
  | [] => simp [collapseE] at h
  | [x] =>
    match x with
    | .arr ys => by_cases hp : ys.all isPairEntry <;> simp [collapseE, hp] at h
    | .obj kvs => by_cases hp : kvs.isEmpty <;> simp [collapseE, hp] at h
    | .str s => by_cases hp : s.isEmpty <;> simp [collapseE, hp] at h
    | .null => simp [collapseE] at h; exact h.symm
    | .bool b => simp [collapseE] at h; exact h.symm
    | .num i => simp [collapseE] at h; exact h.symm
  | x :: y :: rest => simp [collapseE] at h

/-- C1: corrected claim.  For every buffer produced by the reference
encoder (wire types 0, 1, 2, 5; fixed-width values in range) whose
messages are collapse-safe — no message consists of exactly one
non-message field — `pretty_proto` succeeds and returns the encoded
structure positionally, with the readability collapse applied at each
message level; `pretty` returns the same value.  (The unamended claim
fails: a single scalar field makes the collapse iterate a non-iterable
and `pretty_proto` raise, see `wire_roundtrip_counterexample`.) -/
theorem wire_roundtrip (m : PMsg) (hwf : itemsWF m = true) (hgood : msgGood m = true) :
    ∃ v, pmsgValue m = some v ∧ pretty_proto (encodePMsg m) = .ok v ∧
      pretty (some (.bytes (encodePMsg m))) = v := by
  have hg : itemsGood m = true ∧ singletonOK m = true := by
    simpa [msgGood, Bool.and_eq_true] using hgood
  obtain ⟨vs, hvs, hdec⟩ := (decode_enc_main (encodePMsg m).length).2 m (le_refl _) hwf hg.1
    ((encodePMsg m).length + 1) (by omega)
  obtain ⟨v, hcol⟩ := collapseE_ok_of_good m vs hg.2 hvs
  refine ⟨v, ?_, ?_, ?_⟩
  · simp only [pmsgValue]
    rw [hvs]
    dsimp only
    rw [hcol]
    rfl
  · simp only [pretty_proto]
    rw [hdec]
    simp only [Except.bind]
    exact hcol
  · simp only [pretty, prettyBytes]
    rw [hdec]
    simp only [Except.bind]
    rw [hcol]
    rfl

/-- A sample structure exercising wire types 0, 1, 2 and 5. -/
def sampleMsg : PMsg :=
  .cons (.vint 1 300)
    (.cons (.fix64 2 12345678901)
      (.cons (.msg 3 (.cons (.vint 2 3) (.cons (.fix32 1 7) .nil)))
        (.cons (.fix32 4 9) .nil)))

/-- C1: witness for the round-trip theorem at a concrete structure. -/
theorem wire_roundtrip_witness :
    itemsWF sampleMsg = true ∧ msgGood sampleMsg = true ∧
    ∃ v, pmsgValue sampleMsg = some v ∧ pretty_proto (encodePMsg sampleMsg) = .ok v ∧
      pretty (some (.bytes (encodePMsg sampleMsg))) = v :=
  ⟨by decide, by decide, wire_roundtrip sampleMsg (by decide) (by decide)⟩

theorem pretty_proto_85 : pretty_proto [8, 5] = .error .collapseTypeErr := rfl

/-- C1: counterexample to the unamended claim.  The reference encoder
produces `[8, 5]` for the single varint field `5`; the claim asserts the
decoder succeeds on it, but `pretty_proto` raises (a `TypeError` while
collapsing the singleton output `[5]`). -/
theorem wire_roundtrip_counterexample :
    encodePMsg (.cons (.vint 1 5) .nil) = [8, 5] ∧
    itemsWF (.cons (.vint 1 5) .nil) = true ∧
    pretty_proto [8, 5] = .error .collapseTypeErr :=
  ⟨rfl, rfl, pretty_proto_85⟩

/-- C4: the decoder fails (with the Python assertion/exception it
raises, never by reading out of bounds) on every malformed-input class:
(1) a truncated varint — every byte carries the continuation bit;
(2) a fixed 8-byte field past the buffer end;
(3) a fixed 4-byte field past the buffer end;
(4) a length-prefixed blob whose length reads past the buffer end;
(5) an unknown low-3-bit wire type (3, 4, 6 or 7);
(6) trailing garbage after a decodable prefix is never ignored — the
    whole decode fails (success always consumes the entire buffer);
(7) the fuel marker of the model is unreachable: the loop terminates
    within `length + 1` steps on every input. -/
theorem pretty_proto_failure_modes :
    (∀ bs : List Nat, bs ≠ [] → (∀ b ∈ bs, 128 ≤ b) →
      pretty_proto bs = .error .truncVarint) ∧
    (∀ bs : List Nat, bs.length < 8 → pretty_proto (9 :: bs) = .error .fix64OOB) ∧
    (∀ bs : List Nat, bs.length < 4 → pretty_proto (13 :: bs) = .error .fix32OOB) ∧
    (∀ (n : Nat) (bs : List Nat), n < 128 → bs.length < n →
      pretty_proto (10 :: n :: bs) = .error .blobOOB) ∧
    (∀ (w : Nat) (bs : List Nat), w < 128 →
      (w % 8 = 3 ∨ w % 8 = 4 ∨ w % 8 = 6 ∨ w % 8 = 7) →
      pretty_proto (w :: bs) = .error .badWire) ∧
    (∀ (f : Nat) (bs : List Nat) (vs : List JVal), bs.length < f →
      decodeLoop f bs = .ok vs → pretty_proto (bs ++ [128]) = .error .truncVarint) ∧
    (∀ bs : List Nat, pretty_proto bs ≠ .error .fuelOut) := by
  refine ⟨?_, ?_, ?_, ?_, ?_, ?_, ?_⟩
  · intro bs hne hall
    match bs with
    | c :: cs =>
      simp only [pretty_proto, List.length_cons]
      rw [decodeLoop_step _ _ (by simp)]
      rw [readVarint_allCont (c :: cs) 0 0 (by simp) hall]
      rfl
  · intro bs hlen
    simp only [pretty_proto, List.length_cons]
    rw [decodeLoop_step _ _ (by simp)]
    rw [readVarint_single 9 bs (by omega)]
    dsimp only
    norm_num
    simp only [show ¬ 8 ≤ bs.length by omega, if_false]
    rfl
  · intro bs hlen
    simp only [pretty_proto, List.length_cons]
    rw [decodeLoop_step _ _ (by simp)]
    rw [readVarint_single 13 bs (by omega)]
    dsimp only
    norm_num
    simp only [show ¬ 4 ≤ bs.length by omega, if_false]
    rfl
  · intro n bs hn hlen
    simp only [pretty_proto, List.length_cons]
    rw [decodeLoop_step _ _ (by simp)]
    rw [readVarint_single 10 (n :: bs) (by omega)]
    dsimp only
    norm_num
    rw [readVarint_single n bs hn]
    dsimp only
    simp only [show ¬ n ≤ bs.length by omega, if_false]
    rfl
  · intro w bs hw hmod
    simp only [pretty_proto, List.length_cons]
    rw [decodeLoop_step _ _ (by simp)]
    rw [readVarint_single w bs hw]
    dsimp only
    have h0 : ¬ w % 8 = 0 := by omega
    have h1 : ¬ w % 8 = 1 := by omega
    have h2 : ¬ w % 8 = 2 := by omega
    have h5 : ¬ w % 8 = 5 := by omega
    simp only [h0, h1, h2, h5, if_false]
    rfl
  · intro f bs vs hf hok
    have happ := decodeLoop_append bs.length bs (le_refl _) [128] f vs hf hok
    simp only [pretty_proto, List.length_append, List.length_cons, List.length_nil]
    have h128 : decodeLoop ((1 : Nat) + 1) [128] = .error .truncVarint := by
      rw [decodeLoop_step _ _ (by simp)]
      rw [readVarint_allCont [128] 0 0 (by simp) (by simp)]
    simp only [List.length_cons, List.length_nil] at happ
    rw [show bs.length + (0 + 1) + 1 = bs.length + (0 + 1 + 1) by omega] at happ
    rw [show bs.length + 0 + 1 + 1 = bs.length + (0 + 1 + 1) by omega]
    rw [happ]
    rw [show (0 : Nat) + 1 + 1 = 1 + 1 by omega, h128]
    rfl
  · intro bs hcon
    simp only [pretty_proto] at hcon
    cases hdl : decodeLoop (bs.length + 1) bs with
    | error e =>
      rw [hdl] at hcon
      simp only [Except.bind] at hcon
      have := decodeLoop_no_fuelOut (bs.length + 1) bs (by omega)
      rw [hdl] at this
      simp at hcon
      simp [hcon] at this
    | ok out =>
      rw [hdl] at hcon
      simp only [Except.bind] at hcon
      have := collapseE_err out _ hcon
      simp at this

theorem decodeLoop_sample_ok : decodeLoop 5 [8, 5, 16, 7] = .ok [.num 5, .num 7] := rfl

/-- C4: witness instantiating each failure mode at a concrete input. -/
theorem pretty_proto_failure_modes_witness :
    pretty_proto [200] = .error .truncVarint ∧
    pretty_proto [9, 1] = .error .fix64OOB ∧
    pretty_proto [13, 1] = .error .fix32OOB ∧
    pretty_proto [10, 2, 1] = .error .blobOOB ∧
    pretty_proto [3] = .error .badWire ∧
    pretty_proto ([8, 5, 16, 7] ++ [128]) = .error .truncVarint ∧
    pretty_proto [77] ≠ .error .fuelOut :=
  ⟨pretty_proto_failure_modes.1 [200] (by simp) (by decide),
   pretty_proto_failure_modes.2.1 [1] (by simp),
   pretty_proto_failure_modes.2.2.1 [1] (by simp),
   pretty_proto_failure_modes.2.2.2.1 2 [1] (by decide) (by simp),
   pretty_proto_failure_modes.2.2.2.2.1 3 [] (by decide) (by decide),
   pretty_proto_failure_modes.2.2.2.2.2.1 5 [8, 5, 16, 7] [.num 5, .num 7] (by decide)
     decodeLoop_sample_ok,
   pretty_proto_failure_modes.2.2.2.2.2.2 [77]⟩

/-! ## Lemmas: the diff engine -/

theorem insertSorted_mem (a s : String) :
    ∀ l : List String, a ∈ insertSorted s l ↔ a = s ∨ a ∈ l := by
  intro l
  induction l with
  | nil => simp [insertSorted]
  | cons t ts ih =>
    simp only [insertSorted]
    split
    · simp
    · simp only [List.mem_cons, ih]
      tauto

theorem dedupKeys_mem (a : String) : ∀ l : List String, a ∈ dedupKeys l ↔ a ∈ l := by
  intro l
  induction l with
  | nil => simp [dedupKeys]
  | cons x xs ih =>
    by_cases hx : x ∈ xs
    · rw [dedupKeys, if_pos hx, ih]
      simp only [List.mem_cons]
      constructor
      · exact Or.inr
      · rintro (rfl | h)
        · exact hx
        · exact h
    · rw [dedupKeys, if_neg hx]
      simp only [List.mem_cons, ih]

theorem sortedSet_mem (a : String) (l : List String) : a ∈ sortedSet l ↔ a ∈ l := by
  unfold sortedSet
  rw [← dedupKeys_mem a l]
  generalize dedupKeys l = m
  induction m with
  | nil => simp
  | cons x xs ih =>
    simp [insertSorted_mem, ih]

theorem dictGet?_mem {α : Type} (kvs : List (String × α)) (k : String) (v : α)
    (h : dictGet? kvs k = some v) : (k, v) ∈ kvs := by
  unfold dictGet? at h
  cases hf : kvs.find? (fun p => p.1 == k) with
  | none => rw [hf] at h; cases h
  | some p =>
    rw [hf] at h
    have hp := List.find?_some hf
    have hmem : p ∈ kvs := List.mem_of_find?_eq_some hf
    have h1 : p.1 = k := by simpa using hp
    have h2 : p.2 = v := by simpa using h
    have hpv : p = (k, v) := by
      obtain ⟨a, b⟩ := p
      simp_all
    rwa [hpv] at hmem

theorem dictGet?_isSome_of_mem_keys {α : Type} (kvs : List (String × α)) (k : String)
    (h : k ∈ kvs.map (·.1)) : ∃ v, dictGet? kvs k = some v := by
  induction kvs with
  | nil => simp at h
  | cons p rest ih =>
    simp only [dictGet?] at ih ⊢
    cases hpk : (p.1 == k) with
    | true =>
      refine ⟨p.2, ?_⟩
      simp [List.find?, hpk]
    | false =>
      have hk : k ∈ rest.map (·.1) := by
        simp only [List.map_cons, List.mem_cons] at h
        rcases h with h | h
        · rw [h] at hpk
          simp at hpk
        · exact h
      obtain ⟨v, hv⟩ := ih hk
      refine ⟨v, ?_⟩
      simp only [List.find?, hpk]
      exact hv

theorem jvalSize_le_pairs (k : String) (v : JVal) :
    ∀ kvs : List (String × JVal), (k, v) ∈ kvs → jvalSize v ≤ jvalSizePairs kvs := by
  intro kvs
  induction kvs with
  | nil => intro h; cases h
  | cons p rest ih =>
    intro h
    obtain ⟨k2, v2⟩ := p
    rcases List.mem_cons.mp h with heq | hmem
    · cases heq
      simp only [jvalSizePairs]
      omega
    · have := ih hmem
      simp only [jvalSizePairs]
      omega

theorem deltaCommonGo_ne_fuelOut
    (dsub : JVal → JVal → Except DeltaErr (Bool × JVal))
    (prevl newl : List (String × JVal)) :
    ∀ (ks : List String) (d : List (String × JVal)),
    (∀ k ∈ ks, dsub (findVal prevl k) (findVal newl k) ≠ .error .fuelOut) →
    deltaCommonGo dsub prevl newl ks d ≠ .error .fuelOut := by
  intro ks
  induction ks with
  | nil =>
    intro d h
    simp [deltaCommonGo]
  | cons k ks ih =>
    intro d h
    have hk := h k (by simp)
    have hks : ∀ k2 ∈ ks, dsub (findVal prevl k2) (findVal newl k2) ≠ .error .fuelOut :=
      fun k2 hm => h k2 (by simp [hm])
    simp only [deltaCommonGo]
    cases hd : dsub (findVal prevl k) (findVal newl k) with
    | error e =>
      dsimp only
      intro hc
      injection hc with he
      exact hk (by rw [hd, he])
    | ok idsub =>
      dsimp only
      split
      · exact ih _ hks
      · split
        · simp
        · split
          · exact ih _ hks
          · exact ih _ hks
        · exact ih _ hks

theorem deltaF_ne_fuelOut :
    ∀ (fuel : Nat) (p q : JVal), jvalSize q < fuel →
    deltaF fuel p q ≠ .error .fuelOut := by
  intro fuel
  induction fuel with
  | zero =>
    intro p q h
    omega
  | succ fuel ih =>
    intro p q h
    cases p <;> cases q <;> try exact fun hc => Except.noConfusion hc
    case obj.obj prevl newl =>
      have hsub :
          ∀ k ∈ commonKeysOf prevl newl,
          deltaF fuel (findVal prevl k) (findVal newl k) ≠ .error .fuelOut := by
        intro k hkmem
        have hk2 : k ∈ (prevl.map (·.1)).filter (fun k => k ∈ newl.map (·.1)) :=
          (sortedSet_mem k _).mp hkmem
        have hknew : k ∈ newl.map (·.1) := by
          have := List.of_mem_filter hk2
          simpa using this
        obtain ⟨v, hv⟩ := dictGet?_isSome_of_mem_keys newl k hknew
        have hmem : (k, v) ∈ newl := dictGet?_mem newl k v hv
        have hle : jvalSize v ≤ jvalSizePairs newl := jvalSize_le_pairs k v newl hmem
        have hfv : findVal newl k = v := by simp [findVal, hv]
        rw [hfv]
        apply ih
        have hq : jvalSize (JVal.obj newl) = 1 + jvalSizePairs newl := rfl
        omega
      have hgo := deltaCommonGo_ne_fuelOut (deltaF fuel) prevl newl
        (commonKeysOf prevl newl) (deltaInit prevl newl) hsub
      simp only [deltaF]
      cases hdg : deltaCommonGo (deltaF fuel) prevl newl (commonKeysOf prevl newl)
          (deltaInit prevl newl) with
      | error e =>
        rw [hdg] at hgo
        dsimp only
        intro hc
        injection hc with he
        exact hgo (by rw [he])
      | ok d =>
        dsimp only
        simp

/-- The seed fuel of `deltaE` always suffices: the only error `deltaE`
can return is the modelled `IndexError`. -/
theorem deltaE_no_fuelOut (p q : JVal) : deltaE p q ≠ .error .fuelOut :=
  deltaF_ne_fuelOut _ p q (by omega)

theorem deltaListWalk_self : ∀ l : List (JVal × String), deltaListWalk l l = ([], []) := by
  intro l
  induction l with
  | nil => rfl
  | cons p rest ih =>
    obtain ⟨pv, ph⟩ := p
    simp only [deltaListWalk, List.findIdx?_cons]
    have : (ph == ph) = true := by simp
    simp only [this, if_true]
    simp [ih]

theorem deltaList_self (xs : List JVal) : deltaList xs xs = (true, .arr xs) := by
  simp only [deltaList]
  rw [deltaListWalk_self]
  simp

/-- C2: corrected claim.  `delta(X, X)` is `(true, X)` for every scalar
and every sequence; for mappings the identity law fails for EVERY
mapping: the returned pair is never `(true, X)` — when the built diff
dict is empty the representation is the string `"\x7brepeat\x7d"` (never
the mapping itself, as for the empty mapping), and when it is nonempty
the verdict is `false` (see `delta_self_counterexample` for both
shapes). -/
theorem delta_self :
    (∀ X : JVal, (∀ kvs, X ≠ .obj kvs) → deltaE X X = .ok (true, X)) ∧
    deltaE (.obj []) (.obj []) = .ok (true, .str "\x7brepeat\x7d") ∧
    (∀ kvs, deltaE (.obj kvs) (.obj kvs) ≠ .ok (true, .obj kvs)) := by
  refine ⟨?_, rfl, ?_⟩
  · intro X hX
    match X with
    | .null => rfl
    | .bool b => simp [deltaE, deltaF, pyEq, jvalSize]
    | .num n => simp [deltaE, deltaF, pyEq, jvalSize]
    | .str s => simp [deltaE, deltaF, pyEq, jvalSize]
    | .arr xs =>
      simp only [deltaE, deltaF, jvalSize]
      rw [deltaList_self]
    | .obj kvs => exact absurd rfl (hX kvs)
  · intro kvs hc
    simp only [deltaE, deltaF] at hc
    cases hgo : deltaCommonGo (deltaF (jvalSize (JVal.obj kvs) + jvalSize (JVal.obj kvs)))
        kvs kvs (commonKeysOf kvs kvs) (deltaInit kvs kvs) with
    | error e =>
      rw [hgo] at hc
      exact absurd hc (by simp)
    | ok d0 =>
      rw [hgo] at hc
      dsimp only at hc
      injection hc with h2
      have hfst := congrArg Prod.fst h2
      have hsnd := congrArg Prod.snd h2
      dsimp only at hfst hsnd
      rw [if_pos hfst] at hsnd
      cases hsnd

/-- C2: witness for the amended identity law at a sequence. -/
theorem delta_self_witness :
    (∀ kvs, JVal.arr [.num 1] ≠ .obj kvs) ∧
    deltaE (.arr [.num 1]) (.arr [.num 1]) = .ok (true, .arr [.num 1]) :=
  ⟨(fun kvs h => by cases h), delta_self.1 (.arr [.num 1]) (fun kvs h => by cases h)⟩

/-- C2: counterexample to the unamended identity law, in both of the
shapes a mapping self-diff can take: the mapping `\x7b"a": 1\x7d` (short
unchanged entry) self-diffs to verdict `false` with the entry restated,
and the mapping `\x7b"k": 10 ^ 130\x7d` — whose unchanged value dumps to
at least 128 characters and is not a dict, list or string, so no entry
is written — self-diffs to `(true, "\x7brepeat\x7d")`; neither is
`(true, X)`. -/
theorem delta_self_counterexample :
    deltaE (.obj [("a", .num 1)]) (.obj [("a", .num 1)]) = .ok (false, .obj [("a", .num 1)]) ∧
    deltaE (.obj [("a", .num 1)]) (.obj [("a", .num 1)]) ≠
      .ok (true, .obj [("a", .num 1)]) ∧
    deltaE (.obj [("k", .num (10 ^ 130))]) (.obj [("k", .num (10 ^ 130))]) =
      .ok (true, .str "\x7brepeat\x7d") := by
  refine ⟨rfl, by decide, by rfl⟩

/-- C3: the delta engine is not total: at this input the Python code
evaluates `subdelta[0]` on an empty list and raises an uncaught
`IndexError` (the common key `"k"` changed from a nonempty to an empty
list, so the recursive delta is the empty list and the marker check
subscripts it).  The spec says no exception escapes; the code is the
slip.  The error is the distinguished `indexErr`, not fuel exhaustion. -/
theorem delta_raises :
    deltaE (.obj [("k", .arr [.num 1])]) (.obj [("k", .arr [])]) =
      .error .indexErr := by
  rfl

/-! ## Lemmas: the trace state -/

theorem logPreamble_prevLog (sum : Option String) (s : LogState) :
    (logPreamble sum s).prevLog = s.prevLog := by
  unfold logPreamble
  split
  · rfl
  · split <;> rfl

/-- C5: corrected claim.  `Log.trace` updates the stored per-diff-key
state to the newly normalized request and response values exactly on the
calls that pass the verbosity filter (and whose diff key is computed
without an exception); a call dropped by verbosity-based filtering
returns before any state mutation, leaving the state untouched (see
`trace_prevLog_counterexample`). -/
theorem trace_prevLog_update (s : LogState) (now label endpoint : String)
    (request : Option Payload) (req_headers : Option (List (String × String)))
    (response : Option Payload) (resp_headers : Option (List (String × String))) :
    (¬ (s.verbose = true ∨ strContains endpoint "streamGenerateContent" = true) →
      Log.trace s now label endpoint request req_headers response resp_headers
        = (s, .filtered)) ∧
    (∀ key,
      (s.verbose = true ∨ strContains endpoint "streamGenerateContent" = true) →
      keyStep label endpoint (extractK (pretty request)) = some key →
      (Log.trace s now label endpoint request req_headers response resp_headers).1.prevLog
        = dictSet s.prevLog key (pretty request, pretty response)) := by
  constructor
  · intro h
    unfold Log.trace
    rw [if_pos h]
  · intro key hfilter hkey
    unfold Log.trace
    rw [if_neg (fun hn => hn hfilter)]
    dsimp only
    rw [hkey]
    dsimp only
    split <;> try (split <;> try (split <;> try split))
    all_goals simp [logPreamble_prevLog]

/-- C5: witness — a verbose call on a plain endpoint stores the
normalized pair under the key `"L:e"`. -/
theorem trace_prevLog_update_witness :
    (Log.trace (LogState.init "T" true) "N" "L" "e" none none none none).1.prevLog =
      dictSet (LogState.init "T" true).prevLog "L:e" (pretty none, pretty none) :=
  (trace_prevLog_update (LogState.init "T" true) "N" "L" "e" none none none none).2
    "L:e" (Or.inl rfl) rfl

/-- C5: counterexample to the unamended claim: with verbosity off and an
endpoint that is not the distinguished streaming one, the call is
filtered and the per-key state is NOT updated — it stays empty, while an
update would have made it nonempty. -/
theorem trace_prevLog_counterexample :
    Log.trace (LogState.init "T" false) "N" "L" "e" none none none none =
      (LogState.init "T" false, .filtered) ∧
    (Log.trace (LogState.init "T" false) "N" "L" "e" none none none none).1.prevLog = [] ∧
    ∀ (key : String) (v : JVal × JVal),
      dictSet ([] : List (String × (JVal × JVal))) key v ≠ [] := by
  refine ⟨rfl, rfl, ?_⟩
  intro key v
  simp [dictSet]

/-- C6: corrected claim.  The lifecycle is absent → preambled → renamed
with renamed terminal, and a summary arriving on a later record (mode
preambled) renames the file to a name containing the sanitized summary
exactly once; but a summary detected on the very FIRST record (mode
absent) jumps straight to renamed while keeping the timestamp-only name:
the rename branch is guarded by mode preambled, so such a log is never
renamed at all (see `preamble_lifecycle_counterexample`). -/
theorem preamble_lifecycle (s : LogState) (sum : Option String) :
    (s.mode = .renamed → logPreamble sum s = s) ∧
    (s.mode = .preambled → ∀ t, sum = some t →
      (logPreamble sum s).mode = .renamed ∧
      (logPreamble sum s).pathName =
        s.ts ++ " - " ++ strTake (sanitizeSummary t) 120 ++ ".html") ∧
    (s.mode = .preambled → sum = none → logPreamble sum s = s) ∧
    (s.mode = .absent → sum = none →
      (logPreamble sum s).mode = .preambled ∧
      (logPreamble sum s).pathName = s.pathName) ∧
    (s.mode = .absent → ∀ t, sum = some t →
      (logPreamble sum s).mode = .renamed ∧
      (logPreamble sum s).pathName = s.pathName) := by
  refine ⟨?_, ?_, ?_, ?_, ?_⟩
  · intro h
    unfold logPreamble
    rw [if_pos (Or.inl h)]
  · intro h t ht
    subst ht
    unfold logPreamble
    rw [if_neg (by simp [h])]
    rw [h]
    exact ⟨rfl, rfl⟩
  · intro h ht
    subst ht
    unfold logPreamble
    rw [if_pos (Or.inr ⟨h, rfl⟩)]
  · intro h ht
    subst ht
    unfold logPreamble
    rw [if_neg (by simp [h])]
    rw [h]
    exact ⟨rfl, rfl⟩
  · intro h t ht
    subst ht
    unfold logPreamble
    rw [if_neg (by simp [h])]
    rw [h]
    exact ⟨rfl, rfl⟩

/-- C6: witness — from `preambled`, the summary `"S"` renames to
`"T - S.html"`. -/
theorem preamble_lifecycle_witness :
    (logPreamble (some "S") ⟨"T", true, .preambled, "T.html", [], []⟩).mode = .renamed ∧
    (logPreamble (some "S") ⟨"T", true, .preambled, "T.html", [], []⟩).pathName =
      "T" ++ " - " ++ strTake (sanitizeSummary "S") 120 ++ ".html" :=
  (preamble_lifecycle ⟨"T", true, .preambled, "T.html", [], []⟩ (some "S")).2.1 rfl "S" rfl

/-- C6: counterexample to the unamended claim, at the level of a whole
`Log.trace` call: on a fresh log (mode absent), a streaming-generation
append whose request carries the title instruction and whose response
carries the title `"My Title"` detects the summary, yet leaves the path
at the timestamp-only `"T.html"` while jumping to the terminal renamed
mode — the summary never makes it into the file name. -/
theorem preamble_lifecycle_counterexample :
    summaryCandidate "v1:streamGenerateContent"
        (extractK (pretty (some (.str "\x7b\"request\": \x7b\"contents\": [\x7b\"parts\": [\x7b\"text\": \"Generate a short conversation title\"\x7d]\x7d]\x7d\x7d"))))
        (pretty (some (.str "\x7b\"response\": \x7b\"candidates\": [\x7b\"content\": \x7b\"parts\": [\x7b\"text\": \"My Title\"\x7d]\x7d\x7d]\x7d\x7d")))
      = some "My Title" ∧
    (Log.trace (LogState.init "T" true) "N" "L" "v1:streamGenerateContent"
        (some (.str "\x7b\"request\": \x7b\"contents\": [\x7b\"parts\": [\x7b\"text\": \"Generate a short conversation title\"\x7d]\x7d]\x7d\x7d"))
        none
        (some (.str "\x7b\"response\": \x7b\"candidates\": [\x7b\"content\": \x7b\"parts\": [\x7b\"text\": \"My Title\"\x7d]\x7d\x7d]\x7d\x7d"))
        none).1.mode = .renamed ∧
    (Log.trace (LogState.init "T" true) "N" "L" "v1:streamGenerateContent"
        (some (.str "\x7b\"request\": \x7b\"contents\": [\x7b\"parts\": [\x7b\"text\": \"Generate a short conversation title\"\x7d]\x7d]\x7d\x7d"))
        none
        (some (.str "\x7b\"response\": \x7b\"candidates\": [\x7b\"content\": \x7b\"parts\": [\x7b\"text\": \"My Title\"\x7d]\x7d\x7d]\x7d\x7d"))
        none).1.pathName = "T.html" :=
  ⟨rfl, rfl, rfl⟩

/-! ## Lemmas: marker keys, dict membership and key sets (the mapping law) -/

theorem strData_inj {a b : String} (h : a.data = b.data) : a = b := by
  cases a
  cases b
  exact congrArg String.mk h

theorem benignStr_spec {k : String} (h : benignStr k = true) :
    k.data ≠ [] ∧ ∀ c ∈ k.data, c ≠ '-' ∧ c ≠ '+' ∧ c ≠ '*' := by
  unfold benignStr at h
  rw [Bool.and_eq_true] at h
  obtain ⟨h1, h2⟩ := h
  constructor
  · intro hnil
    rw [hnil] at h1
    simp at h1
  · intro c hc
    have h3 := List.all_eq_true.mp h2 c hc
    simp at h3
    exact ⟨h3.1.1, h3.1.2, h3.2⟩

theorem benign_ne_pre {k b : String} (h : benignStr k = true) {m : String} {cm : Char}
    (hmd : m.data = [cm]) (hcm : cm = '-' ∨ cm = '+' ∨ cm = '*') : k ≠ m ++ b := by
  intro he
  have hd : k.data = cm :: b.data := by
    rw [he, String.data_append m b, hmd]
    rfl
  have hcmem : cm ∈ k.data := by
    rw [hd]
    exact List.mem_cons_self _ _
  obtain ⟨-, hall⟩ := benignStr_spec h
  rcases hcm with hc | hc | hc
  · exact (hall cm hcmem).1 hc
  · exact (hall cm hcmem).2.1 hc
  · exact (hall cm hcmem).2.2 hc

theorem benign_ne_suf {k b : String} (h : benignStr k = true) {s : String} {cs : Char}
    (hs : s.data = [cs]) (hcs : cs = '-' ∨ cs = '+' ∨ cs = '*') : k ≠ b ++ s := by
  intro he
  have hd : k.data = b.data ++ [cs] := by
    rw [he, String.data_append b s, hs]
  have hcmem : cs ∈ k.data := by
    rw [hd]
    simp
  obtain ⟨-, hall⟩ := benignStr_spec h
  rcases hcs with hc | hc | hc
  · exact (hall cs hcmem).1 hc
  · exact (hall cs hcmem).2.1 hc
  · exact (hall cs hcmem).2.2 hc

theorem pre_ne_pre {a b : String} {m1 m2 : String} {c1 c2 : Char}
    (h1 : m1.data = [c1]) (h2 : m2.data = [c2]) (hne : c1 ≠ c2) :
    m1 ++ a ≠ m2 ++ b := by
  intro he
  have hd := congrArg String.data he
  rw [String.data_append, String.data_append, h1, h2] at hd
  exact hne (List.head_eq_of_cons_eq hd)

theorem benign_suf_ne_pre {a b : String} (ha : benignStr a = true) {s m : String}
    {cs cm : Char} (hs : s.data = [cs]) (hmd : m.data = [cm])
    (hcm : cm = '-' ∨ cm = '+' ∨ cm = '*') :
    a ++ s ≠ m ++ b := by
  intro he
  have hd := congrArg String.data he
  rw [String.data_append, String.data_append, hs, hmd] at hd
  obtain ⟨hne, hall⟩ := benignStr_spec ha
  cases hda : a.data with
  | nil => exact hne hda
  | cons c cs2 =>
    rw [hda] at hd
    have h1 : c = cm := List.head_eq_of_cons_eq hd
    have hcmem : c ∈ a.data := by
      rw [hda]
      exact List.mem_cons_self _ _
    rcases hcm with h | h
    · exact (hall c hcmem).1 (h1.trans h)
    · rcases h with h | h
      · exact (hall c hcmem).2.1 (h1.trans h)
      · exact (hall c hcmem).2.2 (h1.trans h)

theorem pre_inj {m : String} {a b : String} (he : m ++ a = m ++ b) : a = b := by
  have hd := congrArg String.data he
  rw [String.data_append, String.data_append] at hd
  exact strData_inj (List.append_cancel_left hd)

theorem mem_dictSet_self {α : Type} (d : List (String × α)) (k : String) (v : α) :
    (k, v) ∈ dictSet d k v := by
  unfold dictSet
  split
  · rename_i hany
    rw [List.any_eq_true] at hany
    obtain ⟨p, hp, hpk⟩ := hany
    rw [List.mem_map]
    exact ⟨p, hp, by rw [if_pos hpk]⟩
  · simp

theorem mem_dictSet_of_ne {α : Type} {d : List (String × α)} {k' : String} {v' : α}
    (h : (k', v') ∈ d) {k : String} (hne : k' ≠ k) (v : α) :
    (k', v') ∈ dictSet d k v := by
  unfold dictSet
  split
  · rw [List.mem_map]
    refine ⟨(k', v'), h, ?_⟩
    rw [if_neg (by simp [hne])]
  · exact List.mem_append_left _ h

theorem mem_of_mem_dictSet {α : Type} {d : List (String × α)} {k : String} {v : α}
    {kv : String × α} (h : kv ∈ dictSet d k v) : kv ∈ d ∨ kv = (k, v) := by
  unfold dictSet at h
  split at h
  · rw [List.mem_map] at h
    obtain ⟨p, hp, hpe⟩ := h
    by_cases hpk : (p.1 == k) = true
    · right
      rw [if_pos hpk] at hpe
      exact hpe.symm
    · left
      rw [if_neg hpk] at hpe
      rw [← hpe]
      exact hp
  · rcases List.mem_append.mp h with h | h
    · left
      exact h
    · right
      simpa using h

theorem insertSorted_nodup {s : String} :
    ∀ {l : List String}, s ∉ l → l.Nodup → (insertSorted s l).Nodup := by
  intro l
  induction l with
  | nil =>
    intro _ _
    simp [insertSorted]
  | cons t ts ih =>
    intro hs hl
    simp only [insertSorted]
    split
    · exact List.nodup_cons.mpr ⟨hs, hl⟩
    · rw [List.nodup_cons] at hl
      obtain ⟨ht, hts⟩ := hl
      have hs2 : s ∉ ts := fun hm => hs (List.mem_cons_of_mem _ hm)
      have hst : s ≠ t := fun he => hs (he ▸ List.mem_cons_self _ _)
      refine List.nodup_cons.mpr ⟨?_, ih hs2 hts⟩
      intro hmem
      rw [insertSorted_mem] at hmem
      rcases hmem with h | h
      · exact hst h.symm
      · exact ht h

theorem dedupKeys_nodup : ∀ l : List String, (dedupKeys l).Nodup := by
  intro l
  induction l with
  | nil => simp [dedupKeys]
  | cons x xs ih =>
    by_cases hx : x ∈ xs
    · rwa [dedupKeys, if_pos hx]
    · rw [dedupKeys, if_neg hx]
      exact List.nodup_cons.mpr ⟨fun hm => hx ((dedupKeys_mem x xs).mp hm), ih⟩

theorem foldrIS_mem (a : String) :
    ∀ l : List String, a ∈ l.foldr insertSorted [] ↔ a ∈ l := by
  intro l
  induction l with
  | nil => simp
  | cons x xs ih =>
    simp [insertSorted_mem, ih]

theorem foldrIS_nodup : ∀ l : List String, l.Nodup → (l.foldr insertSorted []).Nodup := by
  intro l
  induction l with
  | nil =>
    intro _
    simp
  | cons x xs ih =>
    intro h
    rw [List.nodup_cons] at h
    rw [List.foldr_cons]
    exact insertSorted_nodup (fun hm => h.1 ((foldrIS_mem x xs).mp hm)) (ih h.2)

theorem sortedSet_nodup (l : List String) : (sortedSet l).Nodup :=
  foldrIS_nodup _ (dedupKeys_nodup l)

theorem mem_commonKeysOf {p q : List (String × JVal)} {k : String} :
    k ∈ commonKeysOf p q ↔ k ∈ p.map (·.1) ∧ k ∈ q.map (·.1) := by
  unfold commonKeysOf
  rw [sortedSet_mem]
  simp [List.mem_filter]

theorem mem_removedKeysOf {p q : List (String × JVal)} {k : String} :
    k ∈ removedKeysOf p q ↔ k ∈ p.map (·.1) ∧ ¬ k ∈ q.map (·.1) := by
  unfold removedKeysOf
  rw [sortedSet_mem]
  simp [List.mem_filter]

theorem mem_addedKeysOf {p q : List (String × JVal)} {k : String} :
    k ∈ addedKeysOf p q ↔ k ∈ q.map (·.1) ∧ ¬ k ∈ p.map (·.1) := by
  unfold addedKeysOf
  rw [sortedSet_mem]
  simp [List.mem_filter]

theorem benignKeys_mem {l : List (String × JVal)} (h : benignKeys l = true)
    {k : String} (hk : k ∈ l.map (·.1)) : benignStr k = true := by
  unfold benignKeys at h
  rw [List.mem_map] at hk
  obtain ⟨kv, hkv, hke⟩ := hk
  have := List.all_eq_true.mp h kv hkv
  rw [← hke]
  simpa using this

theorem foldl_dictSet_preserve (f : String → String) (val : String → JVal) :
    ∀ (ks : List String) (d : List (String × JVal)) (key : String) (v : JVal),
    (key, v) ∈ d → (∀ a ∈ ks, f a ≠ key) →
    (key, v) ∈ ks.foldl (fun d k => dictSet d (f k) (val k)) d := by
  intro ks
  induction ks with
  | nil =>
    intro d key v h _
    exact h
  | cons a as ih =>
    intro d key v h hne
    rw [List.foldl_cons]
    apply ih
    · exact mem_dictSet_of_ne h (fun he => hne a (List.mem_cons_self _ _) he.symm) _
    · exact fun b hb => hne b (List.mem_cons_of_mem _ hb)

theorem foldl_dictSet_mem (f : String → String) (val : String → JVal)
    (hinj : ∀ a b, f a = f b → a = b) :
    ∀ (ks : List String), ks.Nodup → ∀ (d : List (String × JVal)) (k : String), k ∈ ks →
    (f k, val k) ∈ ks.foldl (fun d k => dictSet d (f k) (val k)) d := by
  intro ks
  induction ks with
  | nil =>
    intro _ _ k h
    cases h
  | cons a as ih =>
    intro hnd d k hk
    rw [List.foldl_cons]
    rw [List.nodup_cons] at hnd
    rcases List.mem_cons.mp hk with rfl | hk2
    · apply foldl_dictSet_preserve
      · exact mem_dictSet_self _ _ _
      · intro b hb he
        exact hnd.1 (hinj b k he ▸ hb)
    · exact ih hnd.2 _ k hk2

theorem foldl_dictSet_subset (f : String → String) (val : String → JVal) :
    ∀ (ks : List String) (d : List (String × JVal)) (kv : String × JVal),
    kv ∈ ks.foldl (fun d k => dictSet d (f k) (val k)) d →
    kv ∈ d ∨ ∃ k ∈ ks, kv = (f k, val k) := by
  intro ks
  induction ks with
  | nil =>
    intro d kv h
    exact Or.inl h
  | cons a as ih =>
    intro d kv h
    rw [List.foldl_cons] at h
    rcases ih _ kv h with h2 | ⟨k, hk, he⟩
    · rcases mem_of_mem_dictSet h2 with h3 | h3
      · exact Or.inl h3
      · exact Or.inr ⟨a, List.mem_cons_self _ _, h3⟩
    · exact Or.inr ⟨k, List.mem_cons_of_mem _ hk, he⟩

theorem deltaInit_removed {p q : List (String × JVal)} {k : String}
    (hk : k ∈ removedKeysOf p q) : ("-" ++ k, JVal.null) ∈ deltaInit p q := by
  unfold deltaInit
  apply foldl_dictSet_preserve
  · exact foldl_dictSet_mem _ _ (fun a b => pre_inj) _ (sortedSet_nodup _) _ k hk
  · intro a _
    exact pre_ne_pre rfl rfl (by decide)

theorem deltaInit_added {p q : List (String × JVal)} {k : String}
    (hk : k ∈ addedKeysOf p q) : ("+" ++ k, findVal q k) ∈ deltaInit p q :=
  foldl_dictSet_mem _ _ (fun a b => pre_inj) _ (sortedSet_nodup _) _ k hk

theorem deltaInit_subset {p q : List (String × JVal)} {kv : String × JVal}
    (h : kv ∈ deltaInit p q) :
    (∃ k ∈ removedKeysOf p q, kv = ("-" ++ k, JVal.null)) ∨
    (∃ k ∈ addedKeysOf p q, kv = ("+" ++ k, findVal q k)) := by
  unfold deltaInit at h
  rcases foldl_dictSet_subset _ _ _ _ _ h with h2 | h2
  · rcases foldl_dictSet_subset _ _ _ _ _ h2 with h3 | h3
    · cases h3
    · exact Or.inl h3
  · exact Or.inr h2

theorem deltaCommonGo_cons_ok {dsub : JVal → JVal → Except DeltaErr (Bool × JVal)}
    {prevl newl : List (String × JVal)} {k : String} {ks : List String}
    {d d' : List (String × JVal)}
    (h : deltaCommonGo dsub prevl newl (k :: ks) d = .ok d') :
    ∃ d2, deltaCommonGo dsub prevl newl ks d2 = .ok d' ∧
      (∀ key v, (key, v) ∈ d → key ≠ k → key ≠ "*" ++ k → key ≠ k ++ "-" →
        key ≠ k ++ "+" → (key, v) ∈ d2) ∧
      (∀ kv, kv ∈ d2 →
        kv ∈ d ∨ kv.1 = k ∨ kv.1 = "*" ++ k ∨ kv.1 = k ++ "-" ∨ kv.1 = k ++ "+") ∧
      (dsub (findVal prevl k) (findVal newl k) = .ok (true, findVal newl k) →
        (pyDumps (findVal newl k)).length < 128 → (k, findVal newl k) ∈ d2) := by
  simp only [deltaCommonGo] at h
  cases hd : dsub (findVal prevl k) (findVal newl k) with
  | error e =>
    rw [hd] at h
    exact absurd h (by simp)
  | ok idsub =>
    rw [hd] at h
    dsimp only at h
    by_cases hb : idsub.1 = true
    · rw [if_pos hb] at h
      refine ⟨_, h, ?_, ?_, ?_⟩
      · intro key v hm hk _ _ _
        split
        · exact mem_dictSet_of_ne hm hk _
        · split
          · exact mem_dictSet_of_ne hm hk _
          · exact mem_dictSet_of_ne hm hk _
          · exact mem_dictSet_of_ne hm hk _
          · exact hm
      · intro kv hkv
        split at hkv
        · rcases mem_of_mem_dictSet hkv with h2 | h2
          · exact Or.inl h2
          · exact Or.inr (Or.inl (by rw [h2]))
        · split at hkv
          · rcases mem_of_mem_dictSet hkv with h2 | h2
            · exact Or.inl h2
            · exact Or.inr (Or.inl (by rw [h2]))
          · rcases mem_of_mem_dictSet hkv with h2 | h2
            · exact Or.inl h2
            · exact Or.inr (Or.inl (by rw [h2]))
          · rcases mem_of_mem_dictSet hkv with h2 | h2
            · exact Or.inl h2
            · exact Or.inr (Or.inl (by rw [h2]))
          · exact Or.inl hkv
      · intro hok hshort
        rw [if_pos hshort]
        exact mem_dictSet_self _ _ _
    · rw [if_neg hb] at h
      have hvac : ∀ {P : Prop},
          (Except.ok idsub : Except DeltaErr (Bool × JVal)) = .ok (true, findVal newl k) →
          P := by
        intro P hok
        injection hok with h2
        exact absurd (by rw [h2]) hb
      have hstar : ∀ sub,
          deltaCommonGo dsub prevl newl ks (dictSet d ("*" ++ k) sub) = .ok d' →
          ∃ d2, deltaCommonGo dsub prevl newl ks d2 = .ok d' ∧
            (∀ key v, (key, v) ∈ d → key ≠ k → key ≠ "*" ++ k → key ≠ k ++ "-" →
              key ≠ k ++ "+" → (key, v) ∈ d2) ∧
            (∀ kv, kv ∈ d2 →
              kv ∈ d ∨ kv.1 = k ∨ kv.1 = "*" ++ k ∨ kv.1 = k ++ "-" ∨ kv.1 = k ++ "+") ∧
            ((Except.ok idsub : Except DeltaErr (Bool × JVal)) = .ok (true, findVal newl k) →
              (pyDumps (findVal newl k)).length < 128 → (k, findVal newl k) ∈ d2) := by
        intro sub hh
        refine ⟨_, hh, ?_, ?_, fun hok _ => hvac hok⟩
        · intro key v hm _ hk2 _ _
          exact mem_dictSet_of_ne hm hk2 _
        · intro kv hkv
          rcases mem_of_mem_dictSet hkv with h2 | h2
          · exact Or.inl h2
          · exact Or.inr (Or.inr (Or.inl (by rw [h2])))
      cases hsub : idsub.2 with
      | arr xs =>
        cases xs with
        | nil =>
          rw [hsub] at h
          exact absurd h (by simp)
        | cons x xs2 =>
          rw [hsub] at h
          dsimp only at h
          by_cases hm : ¬ isSepDash x = true ∧ ¬ isSepDots x = true
          · rw [if_pos hm] at h
            exact hstar _ h
          · rw [if_neg hm] at h
            refine ⟨_, h, ?_, ?_, fun hok _ => hvac hok⟩
            · intro key v hmem _ _ hk3 hk4
              split
              · split
                · exact hmem
                · exact mem_dictSet_of_ne hmem hk3 _
              · apply mem_dictSet_of_ne _ hk4
                split
                · exact hmem
                · exact mem_dictSet_of_ne hmem hk3 _
            · intro kv hkv
              split at hkv
              · split at hkv
                · exact Or.inl hkv
                · rcases mem_of_mem_dictSet hkv with h3 | h3
                  · exact Or.inl h3
                  · exact Or.inr (Or.inr (Or.inr (Or.inl (by rw [h3]))))
              · rcases mem_of_mem_dictSet hkv with h2 | h2
                · split at h2
                  · exact Or.inl h2
                  · rcases mem_of_mem_dictSet h2 with h3 | h3
                    · exact Or.inl h3
                    · exact Or.inr (Or.inr (Or.inr (Or.inl (by rw [h3]))))
                · exact Or.inr (Or.inr (Or.inr (Or.inr (by rw [h2]))))
      | null =>
        rw [hsub] at h
        exact hstar _ h
      | bool b =>
        rw [hsub] at h
        exact hstar _ h
      | num n =>
        rw [hsub] at h
        exact hstar _ h
      | str s =>
        rw [hsub] at h
        exact hstar _ h
      | obj kvs =>
        rw [hsub] at h
        exact hstar _ h

theorem deltaCommonGo_preserve {dsub : JVal → JVal → Except DeltaErr (Bool × JVal)}
    {prevl newl : List (String × JVal)} :
    ∀ (ks : List String) (d d' : List (String × JVal)),
    deltaCommonGo dsub prevl newl ks d = .ok d' →
    ∀ key v, (key, v) ∈ d →
    (∀ k ∈ ks, key ≠ k ∧ key ≠ "*" ++ k ∧ key ≠ k ++ "-" ∧ key ≠ k ++ "+") →
    (key, v) ∈ d' := by
  intro ks
  induction ks with
  | nil =>
    intro d d' h key v hm _
    rw [deltaCommonGo] at h
    injection h with h2
    exact h2 ▸ hm
  | cons k ks ih =>
    intro d d' h key v hm hne
    obtain ⟨d2, hrest, hpres, -, -⟩ := deltaCommonGo_cons_ok h
    have hk := hne k (List.mem_cons_self _ _)
    exact ih d2 d' hrest key v
      (hpres key v hm hk.1 hk.2.1 hk.2.2.1 hk.2.2.2)
      (fun k2 hk2 => hne k2 (List.mem_cons_of_mem _ hk2))

theorem deltaCommonGo_subset {dsub : JVal → JVal → Except DeltaErr (Bool × JVal)}
    {prevl newl : List (String × JVal)} :
    ∀ (ks : List String) (d d' : List (String × JVal)),
    deltaCommonGo dsub prevl newl ks d = .ok d' →
    ∀ kv, kv ∈ d' →
    kv ∈ d ∨ ∃ k ∈ ks, kv.1 = k ∨ kv.1 = "*" ++ k ∨ kv.1 = k ++ "-" ∨ kv.1 = k ++ "+" := by
  intro ks
  induction ks with
  | nil =>
    intro d d' h kv hkv
    rw [deltaCommonGo] at h
    injection h with h2
    exact Or.inl (h2 ▸ hkv)
  | cons k ks ih =>
    intro d d' h kv hkv
    obtain ⟨d2, hrest, -, hsubs, -⟩ := deltaCommonGo_cons_ok h
    rcases ih d2 d' hrest kv hkv with h2 | ⟨k2, hk2, hsh⟩
    · rcases hsubs kv h2 with h3 | h3
      · exact Or.inl h3
      · exact Or.inr ⟨k, List.mem_cons_self _ _, h3⟩
    · exact Or.inr ⟨k2, List.mem_cons_of_mem _ hk2, hsh⟩

theorem deltaCommonGo_plain {dsub : JVal → JVal → Except DeltaErr (Bool × JVal)}
    {prevl newl : List (String × JVal)} :
    ∀ (ks : List String) (d d' : List (String × JVal)),
    deltaCommonGo dsub prevl newl ks d = .ok d' →
    ks.Nodup → (∀ k2 ∈ ks, benignStr k2 = true) →
    ∀ k ∈ ks,
    dsub (findVal prevl k) (findVal newl k) = .ok (true, findVal newl k) →
    (pyDumps (findVal newl k)).length < 128 →
    (k, findVal newl k) ∈ d' := by
  intro ks
  induction ks with
  | nil =>
    intro _ _ _ _ _ k hk
    cases hk
  | cons k0 ks ih =>
    intro d d' h hnd hben k hk hok hshort
    obtain ⟨d2, hrest, -, -, hplain⟩ := deltaCommonGo_cons_ok h
    rw [List.nodup_cons] at hnd
    rcases List.mem_cons.mp hk with rfl | hk2
    · have hmem2 := hplain hok hshort
      apply deltaCommonGo_preserve ks d2 d' hrest _ _ hmem2
      intro k2 hk2
      have hbk : benignStr k = true := hben k (List.mem_cons_self _ _)
      have hbk2 : benignStr k2 = true := hben k2 (List.mem_cons_of_mem _ hk2)
      refine ⟨?_, ?_, ?_, ?_⟩
      · intro he
        exact hnd.1 (he ▸ hk2)
      · exact benign_ne_pre hbk rfl (by decide)
      · exact benign_ne_suf hbk rfl (by decide)
      · exact benign_ne_suf hbk rfl (by decide)
    · exact ih d2 d' hrest hnd.2 (fun k2 hk2 => hben k2 (List.mem_cons_of_mem _ hk2))
        k hk2 hok hshort

theorem deltaF_nonobj_refl (fuel : Nat) (v : JVal) (hf : 1 ≤ fuel)
    (hv : ∀ kvs, v ≠ JVal.obj kvs) : deltaF fuel v v = .ok (true, v) := by
  match fuel, hf with
  | fuel + 1, _ =>
    match v with
    | .null => rfl
    | .bool b => simp [deltaF, pyEq]
    | .num n => simp [deltaF, pyEq]
    | .str s => simp [deltaF, pyEq]
    | .arr xs =>
      simp only [deltaF]
      rw [deltaList_self]
    | .obj kvs => exact absurd rfl (hv kvs)

/-- C7: corrected claim.  For mappings whose keys cannot collide with the
manufactured marker keys, the diff dict contains every key present only
in `previous` as a removal marker `"-" ++ k` (valued `null`), every key
present only in `current` as an addition marker `"+" ++ k` carrying its
full value, and every other entry stems from a COMMON key `k` (as `k`,
`"*" ++ k`, `k ++ "-"` or `k ++ "+"`); but common keys appear even when
their values are identical: an unchanged common key with a short non-dict
value is restated in the delta under its plain name (clause four),
refuting the spec sentence that no other keys appear unless their values
differ (see `delta_mapping_law_counterexample`). -/
theorem delta_mapping_law (p q : List (String × JVal)) (ident : Bool)
    (d : List (String × JVal))
    (hbp : benignKeys p = true) (hbq : benignKeys q = true)
    (h : deltaE (.obj p) (.obj q) = .ok (ident, .obj d)) :
    (∀ k ∈ removedKeysOf p q, ("-" ++ k, JVal.null) ∈ d) ∧
    (∀ k ∈ addedKeysOf p q, ("+" ++ k, findVal q k) ∈ d) ∧
    (∀ kv ∈ d,
      (∃ k ∈ removedKeysOf p q, kv = ("-" ++ k, JVal.null)) ∨
      (∃ k ∈ addedKeysOf p q, kv = ("+" ++ k, findVal q k)) ∨
      (∃ k ∈ commonKeysOf p q,
        kv.1 = k ∨ kv.1 = "*" ++ k ∨ kv.1 = k ++ "-" ∨ kv.1 = k ++ "+")) ∧
    (∀ k ∈ commonKeysOf p q, findVal p k = findVal q k →
      (∀ kvs, findVal q k ≠ JVal.obj kvs) →
      (pyDumps (findVal q k)).length < 128 →
      (k, findVal q k) ∈ d) := by
  have hbenc : ∀ k2 ∈ commonKeysOf p q, benignStr k2 = true := by
    intro k2 hk2
    exact benignKeys_mem hbq (mem_commonKeysOf.mp hk2).2
  simp only [deltaE, deltaF] at h
  cases hgo : deltaCommonGo (deltaF (jvalSize (JVal.obj p) + jvalSize (JVal.obj q))) p q
      (commonKeysOf p q) (deltaInit p q) with
  | error e =>
    rw [hgo] at h
    exact absurd h (by simp)
  | ok d0 =>
    rw [hgo] at h
    dsimp only at h
    injection h with h2
    have h3 := congrArg Prod.snd h2
    by_cases hemp : d0.isEmpty = true
    · rw [if_pos hemp] at h3
      cases h3
    · rw [if_neg hemp] at h3
      dsimp only at h3
      injection h3 with h4
      subst h4
      refine ⟨?_, ?_, ?_, ?_⟩
      · intro k hk
        apply deltaCommonGo_preserve _ _ _ hgo _ _ (deltaInit_removed hk)
        intro k2 hk2
        have hbk2 := hbenc k2 hk2
        refine ⟨(benign_ne_pre hbk2 rfl (by decide)).symm,
          pre_ne_pre rfl rfl (by decide),
          (benign_suf_ne_pre hbk2 rfl rfl (by decide)).symm,
          (benign_suf_ne_pre hbk2 rfl rfl (by decide)).symm⟩
      · intro k hk
        apply deltaCommonGo_preserve _ _ _ hgo _ _ (deltaInit_added hk)
        intro k2 hk2
        have hbk2 := hbenc k2 hk2
        refine ⟨(benign_ne_pre hbk2 rfl (by decide)).symm,
          pre_ne_pre rfl rfl (by decide),
          (benign_suf_ne_pre hbk2 rfl rfl (by decide)).symm,
          (benign_suf_ne_pre hbk2 rfl rfl (by decide)).symm⟩
      · intro kv hkv
        rcases deltaCommonGo_subset _ _ _ hgo kv hkv with h5 | ⟨k, hk, hsh⟩
        · rcases deltaInit_subset h5 with h6 | h6
          · exact Or.inl h6
          · exact Or.inr (Or.inl h6)
        · exact Or.inr (Or.inr ⟨k, hk, hsh⟩)
      · intro k hk heq hnonobj hshort
        apply deltaCommonGo_plain _ _ _ hgo (sortedSet_nodup _) hbenc k hk _ hshort
        rw [heq]
        apply deltaF_nonobj_refl _ _ _ hnonobj
        have h5 : jvalSize (JVal.obj p) = 1 + jvalSizePairs p := rfl
        omega

/-- C7: witness — diffing `\x7b"a": 1, "r": 1\x7d` against
`\x7b"a": 1, "n": 2\x7d` puts the removal marker `-r`, the addition
marker `+n` with its value, and the unchanged common key `a` in the
delta. -/
theorem delta_mapping_law_witness :
    ("-" ++ "r", JVal.null) ∈
      [("-" ++ "r", JVal.null), ("+" ++ "n", JVal.num 2), ("a", JVal.num 1)] ∧
    ("+" ++ "n", findVal [("a", JVal.num 1), ("n", JVal.num 2)] "n") ∈
      [("-" ++ "r", JVal.null), ("+" ++ "n", JVal.num 2), ("a", JVal.num 1)] ∧
    ("a", findVal [("a", JVal.num 1), ("n", JVal.num 2)] "a") ∈
      [("-" ++ "r", JVal.null), ("+" ++ "n", JVal.num 2), ("a", JVal.num 1)] := by
  have h := delta_mapping_law [("a", .num 1), ("r", .num 1)] [("a", .num 1), ("n", .num 2)]
    false [("-" ++ "r", .null), ("+" ++ "n", .num 2), ("a", .num 1)] rfl rfl rfl
  exact ⟨h.1 "r" (by decide), h.2.1 "n" (by decide),
    h.2.2.2 "a" (by decide) rfl (fun kvs hh => nomatch hh) (by decide)⟩

/-- C7: counterexample to the unamended mapping law: diffing the mapping
`\x7b"b": 2\x7d` against itself — no removed keys, no added keys, no
differing values — still produces a delta restating the key `"b"`,
rather than a delta with no keys. -/
theorem delta_mapping_law_counterexample :
    deltaE (.obj [("b", .num 2)]) (.obj [("b", .num 2)]) =
      .ok (false, .obj [("b", .num 2)]) ∧
    removedKeysOf [("b", JVal.num 2)] [("b", JVal.num 2)] = [] ∧
    addedKeysOf [("b", JVal.num 2)] [("b", JVal.num 2)] = [] ∧
    findVal [("b", JVal.num 2)] "b" = findVal [("b", JVal.num 2)] "b" := by
  exact ⟨rfl, rfl, rfl, rfl⟩

/-! ## Lemmas: header redaction -/

theorem redact_headers_eq {h1 h2 : List (String × String)}
    (hrel : List.Forall₂
      (fun a b => a.1 = b.1 ∧ (pyLower a.1 ∈ blocklist ∨ a.2 = b.2)) h1 h2) :
    redact_headers h1 = redact_headers h2 := by
  induction hrel with
  | nil => rfl
  | @cons a b l1 l2 hab htail ih =>
    obtain ⟨hk, hor⟩ := hab
    simp only [redact_headers, List.map_cons] at ih ⊢
    rw [ih]
    congr 1
    rw [← hk]
    by_cases hbl : pyLower a.1 ∈ blocklist
    · rw [if_pos hbl, if_pos hbl]
    · rcases hor with hor | hor
      · exact absurd hor hbl
      · rw [hor]

/-- C8: confirmed claim.  Every blocklisted header (compared after
lowercasing) keeps its key but has its value replaced by the literal
redaction marker; every entry of the redacted mapping is either a
blocklisted key valued by the marker or a verbatim non-blocklisted
entry; and a whole `Log.trace` call cannot distinguish two request
header mappings that agree on keys and on all non-blocklisted values —
the secret values never influence the output. -/
theorem trace_redaction (h1 h2 : List (String × String))
    (hrel : List.Forall₂
      (fun a b => a.1 = b.1 ∧ (pyLower a.1 ∈ blocklist ∨ a.2 = b.2)) h1 h2) :
    (∀ k v, (k, v) ∈ h1 → pyLower k ∈ blocklist →
      (k, "[REDACTED]") ∈ redact_headers h1) ∧
    (∀ kv, kv ∈ redact_headers h1 →
      (pyLower kv.1 ∈ blocklist ∧ kv.2 = "[REDACTED]") ∨
      (¬ pyLower kv.1 ∈ blocklist ∧ kv ∈ h1)) ∧
    redact_headers h1 = redact_headers h2 ∧
    (∀ s now label endpoint request response resp_headers,
      Log.trace s now label endpoint request (some h1) response resp_headers =
      Log.trace s now label endpoint request (some h2) response resp_headers) := by
  refine ⟨?_, ?_, redact_headers_eq hrel, ?_⟩
  · intro k v hm hbl
    unfold redact_headers
    rw [List.mem_map]
    refine ⟨(k, v), hm, ?_⟩
    dsimp only
    rw [if_pos hbl]
  · intro kv hkv
    unfold redact_headers at hkv
    rw [List.mem_map] at hkv
    obtain ⟨p, hp, hpe⟩ := hkv
    by_cases hbl : pyLower p.1 ∈ blocklist
    · left
      rw [← hpe]
      exact ⟨hbl, by rw [if_pos hbl]⟩
    · right
      rw [← hpe]
      refine ⟨hbl, ?_⟩
      rw [if_neg hbl]
      exact hp
  · intro s now label endpoint request response resp_headers
    have hr := redact_headers_eq hrel
    have hbr : ∀ r4 rv, buildRecord label endpoint now r4 (some h1) rv resp_headers
        = buildRecord label endpoint now r4 (some h2) rv resp_headers := by
      intro r4 rv
      unfold buildRecord headersJ
      dsimp only
      rw [hr]
    unfold Log.trace
    simp only [hbr]

/-- C8: witness — two appends differing only in the bearer token
redact identically, and the redaction both keeps the `Authorization` key
and replaces its value with the marker. -/
theorem trace_redaction_witness :
    ("Authorization", "[REDACTED]") ∈
      redact_headers [("Authorization", "Bearer xyz"), ("x", "1")] ∧
    redact_headers [("Authorization", "Bearer xyz"), ("x", "1")] =
      redact_headers [("Authorization", "Bearer abc"), ("x", "1")] := by
  have h := trace_redaction [("Authorization", "Bearer xyz"), ("x", "1")]
    [("Authorization", "Bearer abc"), ("x", "1")]
    (List.Forall₂.cons ⟨rfl, Or.inl (by decide)⟩
      (List.Forall₂.cons ⟨rfl, Or.inr rfl⟩ List.Forall₂.nil))
  exact ⟨h.1 "Authorization" "Bearer xyz" (by decide) (by decide), h.2.2.1⟩

/-- C9: corrected claim.  When wire decoding fails and UTF-8 decoding
also fails, the normalizer returns the hex encoding; when UTF-8 decoding
succeeds, the code first STRIPS the decoded text, returns hex only when
the hex encoding is strictly shorter than the STRIPPED text, and
otherwise continues with the STRIPPED text (not the decoded text) as the
working value (see `pretty_hex_counterexample`). -/
theorem pretty_hex_fallback (bs : List Nat) (e : WireErr)
    (hfail : pretty_proto bs = .error e) :
    (utf8Decode bs = none → pretty (some (.bytes bs)) = .str (hexStr bs)) ∧
    (∀ chars, utf8Decode bs = some chars →
      pretty (some (.bytes bs)) =
        (if (hexStr bs).length < (pyStrip ⟨chars⟩).length then .str (hexStr bs)
         else textPipeline (pyStrip ⟨chars⟩))) := by
  unfold pretty_proto at hfail
  constructor
  · intro h0
    unfold pretty prettyBytes prettyBytesCore
    dsimp only
    rw [hfail, h0]
  · intro chars hc
    unfold pretty prettyBytes prettyBytesCore
    dsimp only
    rw [hfail, hc]

/-- C9: witness — the single byte `0xff` fails both decoders and comes
out as its hex text `"ff"`. -/
theorem pretty_hex_fallback_witness :
    pretty (some (.bytes [255])) = .str (hexStr [255]) :=
  (pretty_hex_fallback [255] .truncVarint rfl).1 rfl

/-- C9: counterexample to the unamended claim: the bytes of `" x "`
fail wire decoding, UTF-8 decode to `" x "`, and the normalizer
continues with the STRIPPED text `"x"` — not with the decoded text
`" x "` as the claim words it. -/
theorem pretty_hex_counterexample :
    pretty (some (.bytes [32, 120, 32])) = .str "x" ∧
    utf8Decode [32, 120, 32] = some [' ', 'x', ' '] ∧
    pretty (some (.bytes [32, 120, 32])) ≠ textPipeline ⟨[' ', 'x', ' ']⟩ := by
  refine ⟨rfl, rfl, ?_⟩
  decide

/-! ## Lemmas: `parse_argv` -/

theorem dictGet?_map_replace {α : Type} {k k' : String} (hne : k' ≠ k) (v : α) :
    ∀ rest : List (String × α),
    dictGet? (rest.map (fun p => if p.1 == k then (k, v) else p)) k' = dictGet? rest k' := by
  intro rest
  induction rest with
  | nil => rfl
  | cons q rest ih =>
    have h1 : (k == k') = false := beq_false_of_ne (Ne.symm hne)
    by_cases hq : (q.1 == k) = true
    · have hqk : q.1 = k := by simpa using hq
      have h2 : (q.1 == k') = false := by rw [hqk]; exact h1
      simp only [List.map_cons, if_pos hq, dictGet?, List.find?, h1, h2]
      exact ih
    · simp only [List.map_cons, if_neg hq, dictGet?, List.find?]
      cases hq2 : (q.1 == k') with
      | true => rfl
      | false =>
        simp only [hq2]
        exact ih

theorem dictGet?_map_replace_self {α : Type} {k : String} (v : α) :
    ∀ rest : List (String × α), rest.any (fun p => p.1 == k) = true →
    dictGet? (rest.map (fun p => if p.1 == k then (k, v) else p)) k = some v := by
  intro rest
  induction rest with
  | nil =>
    intro h
    cases h
  | cons q rest ih =>
    intro h
    by_cases hq : (q.1 == k) = true
    · simp only [List.map_cons, if_pos hq, dictGet?, List.find?, beq_self_eq_true]
      rfl
    · have hq2 : (q.1 == k) = false := by
        revert hq
        cases (q.1 == k) <;> simp
      have h2 : rest.any (fun p => p.1 == k) = true := by
        rw [List.any_cons] at h
        rcases Bool.or_eq_true_iff.mp h with h | h
        · exact absurd h hq
        · exact h
      simp only [List.map_cons]
      rw [if_neg hq]
      simp only [dictGet?, List.find?, hq2]
      exact ih h2

theorem dictGet?_append_single_self {α : Type} {k : String} (v : α) :
    ∀ l : List (String × α), l.any (fun p => p.1 == k) = false →
    dictGet? (l ++ [(k, v)]) k = some v := by
  intro l
  induction l with
  | nil =>
    intro _
    simp [dictGet?, List.find?]
  | cons q l ih =>
    intro h
    rw [List.any_cons] at h
    have h1 : (q.1 == k) = false := by
      cases hq : (q.1 == k)
      · rfl
      · rw [hq] at h
        simp at h
    have h2 : l.any (fun p => p.1 == k) = false := by
      rw [h1] at h
      simpa using h
    simp only [List.cons_append, dictGet?, List.find?]
    rw [h1]
    exact ih h2

theorem dictGet?_append_single_ne {α : Type} {k k' : String} (hne : k' ≠ k) (v : α) :
    ∀ l : List (String × α),
    dictGet? (l ++ [(k, v)]) k' = dictGet? l k' := by
  intro l
  induction l with
  | nil =>
    simp only [List.nil_append, dictGet?, List.find?, beq_false_of_ne (Ne.symm hne)]
  | cons q l ih =>
    simp only [List.cons_append, dictGet?, List.find?] at ih ⊢
    cases hq : (q.1 == k') with
    | true => rfl
    | false => exact ih

theorem dictGet?_dictSet {α : Type} (r : List (String × α)) (k k' : String) (v : α) :
    dictGet? (dictSet r k v) k' = if k' = k then some v else dictGet? r k' := by
  unfold dictSet
  by_cases hany : r.any (fun p => p.1 == k) = true
  · rw [if_pos hany]
    by_cases hk : k' = k
    · subst hk
      rw [if_pos rfl]
      exact dictGet?_map_replace_self v r hany
    · rw [if_neg hk]
      exact dictGet?_map_replace hk v r
  · rw [if_neg hany]
    by_cases hk : k' = k
    · subst hk
      rw [if_pos rfl]
      exact dictGet?_append_single_self v r (Bool.eq_false_iff.mpr hany)
    · rw [if_neg hk]
      exact dictGet?_append_single_ne hk v r

theorem lastRun_cons_none {f t : String} {rest : List String}
    (h : lastRun f (t :: rest) = none) : lastRun f rest = none ∧ t ≠ f := by
  simp only [lastRun] at h
  cases hl : lastRun f rest with
  | some vs =>
    rw [hl] at h
    dsimp only at h
    cases h
  | none =>
    rw [hl] at h
    dsimp only at h
    by_cases htf : t = f
    · rw [if_pos htf] at h
      cases h
    · exact ⟨rfl, htf⟩

theorem parseGo_inv :
    ∀ (rest : List String) (current : String) (r : List (String × List String))
      (cvs : List String),
    strStarts current "--" = true →
    dictGet? r current = some cvs →
    ∃ res, parseGo current r rest = some res ∧
      (∀ f, lastRun f rest = none → f ≠ current → dictGet? res f = dictGet? r f) ∧
      (∀ f vs, strStarts f "--" = true → lastRun f rest = some vs →
        dictGet? res f = some vs) ∧
      (lastRun current rest = none →
        dictGet? res current = some (cvs ++ runAfter rest)) ∧
      (∀ f vs, (f, vs) ∈ res →
        (∃ vs0, (f, vs0) ∈ r) ∨ (f ∈ rest ∧ strStarts f "--" = true)) := by
  intro rest
  induction rest with
  | nil =>
    intro current r cvs hcur hget
    refine ⟨r, rfl, fun f _ _ => rfl, ?_, ?_, ?_⟩
    · intro f vs _ h
      cases h
    · intro _
      simp only [runAfter, List.append_nil]
      exact hget
    · intro f vs hm
      exact Or.inl ⟨vs, hm⟩
  | cons t rest ih =>
    intro current r cvs hcur hget
    by_cases ht : strStarts t "--" = true
    · have hstep : parseGo current r (t :: rest) = parseGo t (dictSet r t []) rest := by
        simp only [parseGo, if_pos ht]
      obtain ⟨res, hres, hc1, hc2, hc3, hc4⟩ := ih t (dictSet r t []) [] ht
        (by rw [dictGet?_dictSet]; simp)
      refine ⟨res, by rw [hstep]; exact hres, ?_, ?_, ?_, ?_⟩
      · intro f hlr hfc
        obtain ⟨hl, htf⟩ := lastRun_cons_none hlr
        rw [hc1 f hl (fun he => htf he.symm)]
        rw [dictGet?_dictSet, if_neg (fun he => htf he.symm)]
      · intro f vs hf hlr
        simp only [lastRun] at hlr
        cases hl : lastRun f rest with
        | some vs2 =>
          rw [hl] at hlr
          dsimp only at hlr
          injection hlr with hvs
          exact hvs ▸ hc2 f vs2 hf hl
        | none =>
          rw [hl] at hlr
          dsimp only at hlr
          by_cases htf : t = f
          · rw [if_pos htf] at hlr
            injection hlr with hvs
            subst htf
            have h5 := hc3 hl
            rw [List.nil_append] at h5
            rw [h5, hvs]
          · rw [if_neg htf] at hlr
            cases hlr
      · intro hlr
        obtain ⟨hl, htc⟩ := lastRun_cons_none hlr
        have hra : runAfter (t :: rest) = [] := by simp [runAfter, ht]
        rw [hra, List.append_nil]
        rw [hc1 current hl (fun he => htc he.symm)]
        rw [dictGet?_dictSet, if_neg (fun he => htc he.symm)]
        exact hget
      · intro f vs hm
        rcases hc4 f vs hm with ⟨vs0, hv0⟩ | ⟨hf1, hf2⟩
        · rcases mem_of_mem_dictSet hv0 with h5 | h5
          · exact Or.inl ⟨vs0, h5⟩
          · have hf : f = t := congrArg Prod.fst h5
            exact Or.inr ⟨by rw [hf]; exact List.mem_cons_self _ _, by rw [hf]; exact ht⟩
        · exact Or.inr ⟨List.mem_cons_of_mem _ hf1, hf2⟩
    · have hstep : parseGo current r (t :: rest) =
          parseGo current (dictSet r current (cvs ++ [t])) rest := by
        simp only [parseGo, if_neg ht]
        rw [hget]
      have htc : t ≠ current := fun he => ht (he ▸ hcur)
      obtain ⟨res, hres, hc1, hc2, hc3, hc4⟩ := ih current (dictSet r current (cvs ++ [t]))
        (cvs ++ [t]) hcur (by rw [dictGet?_dictSet]; simp)
      refine ⟨res, by rw [hstep]; exact hres, ?_, ?_, ?_, ?_⟩
      · intro f hlr hfc
        obtain ⟨hl, htf⟩ := lastRun_cons_none hlr
        rw [hc1 f hl hfc]
        rw [dictGet?_dictSet, if_neg hfc]
      · intro f vs hf hlr
        simp only [lastRun] at hlr
        cases hl : lastRun f rest with
        | some vs2 =>
          rw [hl] at hlr
          dsimp only at hlr
          injection hlr with hvs
          exact hvs ▸ hc2 f vs2 hf hl
        | none =>
          rw [hl] at hlr
          dsimp only at hlr
          by_cases htf : t = f
          · exact absurd (htf ▸ hf) ht
          · rw [if_neg htf] at hlr
            cases hlr
      · intro hlr
        obtain ⟨hl, -⟩ := lastRun_cons_none hlr
        have hra : runAfter (t :: rest) = t :: runAfter rest := by simp [runAfter, ht]
        have h5 := hc3 hl
        rw [h5, hra]
        simp [List.append_assoc]
      · intro f vs hm
        rcases hc4 f vs hm with ⟨vs0, hv0⟩ | h5
        · rcases mem_of_mem_dictSet hv0 with h5 | h5
          · exact Or.inl ⟨vs0, h5⟩
          · have hf : f = current := congrArg Prod.fst h5
            exact Or.inl ⟨cvs, by rw [hf]; exact dictGet?_mem r current cvs hget⟩
        · exact Or.inr ⟨List.mem_cons_of_mem _ h5.1, h5.2⟩

/-- C10: confirmed claim.  `parse_argv` is safe exactly under the
precondition that the first token begins with `"--"`: a leading non-flag
token makes `r[current].append(token)` subscript the missing key `""`
and raise `KeyError` (modelled `none`); under the precondition it
returns without error a mapping whose keys are exactly the flag tokens
of the input, each flag mapped to the run of non-flag tokens following
its LAST occurrence (a repeated flag keeps only the last occurrence's
values). -/
theorem parse_argv_spec :
    (∀ t rest, ¬ strStarts t "--" = true → parse_argv (t :: rest) = none) ∧
    (∀ t rest, strStarts t "--" = true →
      ∃ res, parse_argv (t :: rest) = some res ∧
        (∀ f vs, strStarts f "--" = true → lastRun f rest = some vs →
          dictGet? res f = some vs) ∧
        (lastRun t rest = none → dictGet? res t = some (runAfter rest)) ∧
        (∀ f vs, (f, vs) ∈ res → strStarts f "--" = true ∧ f ∈ t :: rest)) := by
  constructor
  · intro t rest hnf
    simp only [parse_argv, parseGo, if_neg hnf]
    rfl
  · intro t rest ht
    have hstep : parse_argv (t :: rest) = parseGo t (dictSet [] t []) rest := by
      simp only [parse_argv, parseGo, if_pos ht]
    obtain ⟨res, hres, hc1, hc2, hc3, hc4⟩ := parseGo_inv rest t (dictSet [] t []) [] ht
      (by rw [dictGet?_dictSet]; simp)
    refine ⟨res, by rw [hstep]; exact hres, hc2, ?_, ?_⟩
    · intro hlr
      have h5 := hc3 hlr
      rwa [List.nil_append] at h5
    · intro f vs hm
      rcases hc4 f vs hm with ⟨vs0, hv0⟩ | ⟨h1, h2⟩
      · have he : dictSet ([] : List (String × List String)) t [] = [(t, [])] := rfl
        rw [he] at hv0
        have h3 := List.mem_singleton.mp hv0
        have hf : f = t := congrArg Prod.fst h3
        exact ⟨by rw [hf]; exact ht, by rw [hf]; exact List.mem_cons_self _ _⟩
      · exact ⟨h2, List.mem_cons_of_mem _ h1⟩

/-- C10: witness — the docstring example parses as documented, and a
leading positional argument raises. -/
theorem parse_argv_spec_witness :
    (∃ res, parse_argv ["--foo", "1", "--bar", "--baz", "2", "3"] = some res ∧
      dictGet? res "--foo" = some ["1"] ∧
      dictGet? res "--bar" = some [] ∧
      dictGet? res "--baz" = some ["2", "3"]) ∧
    parse_argv ["x", "--foo"] = none := by
  constructor
  · obtain ⟨res, hres, hc2, hc3, -⟩ :=
      parse_argv_spec.2 "--foo" ["1", "--bar", "--baz", "2", "3"] rfl
    exact ⟨res, hres, hc3 rfl, hc2 "--bar" [] rfl rfl, hc2 "--baz" ["2", "3"] rfl rfl⟩
  · exact parse_argv_spec.1 "x" ["--foo"] (by decide)
